import Mathlib

/-!
Verification of the ws-platform repository against its specification.

Each section embeds one Rust module of the repository shallowly in Lean:
pure functions become Lean functions, stateful code becomes explicit state
passing, `usize`/`u64` become `Nat` (no overflow is reachable in the claims
below), and panics become `Option`/`Except` failures.
-/

namespace WS

/-! ## Buffer (src/buffer.rs) -/

/-- Shallow embedding of `Buffer` from `src/buffer.rs`: the byte vector
`data` (bytes as `Nat`), read cursor `rpos`, drain cursor `wpos` and end
cursor `endp` (field `end` in the source; renamed because `end` is a Lean
keyword).  The vector's length plays the role of the buffer capacity. -/
structure Buffer where
  data : List Nat
  rpos : Nat
  wpos : Nat
  endp : Nat
deriving Repr, DecidableEq

/-- `Buffer::default()`: `Vec::with_capacity(4096)` has length 0. -/
def Buffer.init : Buffer := ⟨[], 0, 0, 0⟩

/-- `Vec::resize(n, 0)`: truncate to `n` or pad with zeros up to length `n`. -/
def vecResize (l : List Nat) (n : Nat) : List Nat :=
  l.take n ++ List.replicate (n - l.length) 0

/-- `Buffer::reset`. -/
def Buffer.resetOp (_b : Buffer) : Buffer := ⟨[], 0, 0, 0⟩

/-- `Buffer::getc`: returns `data[rpos]` and advances `rpos`; the index
panics (modelled as `none`) when `rpos` is out of range of the vector. -/
def Buffer.getcOp (b : Buffer) : Option (Nat × Buffer) :=
  if h : b.rpos < b.data.length then
    some (b.data.get ⟨b.rpos, h⟩, { b with rpos := b.rpos + 1 })
  else
    none

/-- `Buffer::read`: when `end ≥ data.len() / 2` the vector is resized (to
4096 when empty, doubling otherwise); then `stream.read(&mut self.data)`
writes the socket's bytes at offset 0 of the vector — `input` is what the
socket delivers, `sz = min input.length data.length` — and `end` advances
by `sz`.  Returns the new buffer and `(eof, sz)` with `eof ↔ sz = 0`. -/
def Buffer.readOp (b : Buffer) (input : List Nat) : Buffer × Bool × Nat :=
  let data :=
    if b.data.length / 2 ≤ b.endp then
      vecResize b.data (if b.data.length = 0 then 4096 else b.data.length * 2)
    else b.data
  let sz := min input.length data.length
  (⟨input.take sz ++ data.drop sz, b.rpos, b.wpos, b.endp + sz⟩, sz == 0, sz)

/-- `Buffer::write`: when `end > wpos` it sends from the slice
`data[wpos..end]` (a panic — `none` — when that slice is out of bounds),
advancing `wpos` by the number of bytes the stream accepted; `cap` bounds
how many bytes the stream takes.  Returns `(done, sz)` as in the source. -/
def Buffer.writeOp (b : Buffer) (cap : Nat) : Option (Buffer × Bool × Nat) :=
  if b.wpos < b.endp then
    if b.endp ≤ b.data.length then
      let sz := min cap (b.endp - b.wpos)
      some ({ b with wpos := b.wpos + sz }, b.wpos + sz == b.endp, sz)
    else none
  else some (b, true, 0)

/-- `Buffer::extend`: appends `slice` to the vector and advances `end`. -/
def Buffer.extendOp (b : Buffer) (slice : List Nat) : Buffer :=
  ⟨b.data ++ slice, b.rpos, b.wpos, b.endp + slice.length⟩

/-- `Buffer::end()`: `rpos >= end`. -/
def Buffer.atEnd (b : Buffer) : Bool := b.endp ≤ b.rpos

/-- `Buffer::tail`: returns the slice `data[rpos..end]` and sets
`rpos := end`; the slice panics (`none`) unless `rpos ≤ end ≤ data.length`. -/
def Buffer.tailOp (b : Buffer) : Option (List Nat × Buffer) :=
  if b.rpos ≤ b.endp ∧ b.endp ≤ b.data.length then
    some ((b.data.drop b.rpos).take (b.endp - b.rpos), { b with rpos := b.endp })
  else none

/-- `Buffer::chunk(len)`: with `e := min (rpos + len) end`, returns the
slice `data[rpos..e]` (panic `none` when invalid) and sets `rpos := e`. -/
def Buffer.chunkOp (b : Buffer) (len : Nat) : Option (List Nat × Buffer) :=
  if b.rpos ≤ min (b.rpos + len) b.endp ∧ min (b.rpos + len) b.endp ≤ b.data.length then
    some ((b.data.drop b.rpos).take (min (b.rpos + len) b.endp - b.rpos),
      { b with rpos := min (b.rpos + len) b.endp })
  else none

/-- One operation of the `Buffer` API, together with the socket data that
drives it (`opRead`: the bytes the socket delivers; `opWrite`: how many
bytes the socket accepts). -/
inductive BufOp where
  | opReset
  | opRead (input : List Nat)
  | opWrite (cap : Nat)
  | opGetc
  | opTail
  | opChunk (len : Nat)
  | opExtend (slice : List Nat)

/-- Apply one buffer operation, keeping only the buffer state. -/
def Buffer.applyOp (b : Buffer) : BufOp → Option Buffer
  | .opReset => some (Buffer.resetOp b)
  | .opRead input => some (Buffer.readOp b input).1
  | .opWrite cap => (Buffer.writeOp b cap).map (·.1)
  | .opGetc => (Buffer.getcOp b).map (·.2)
  | .opTail => (Buffer.tailOp b).map (·.2)
  | .opChunk len => (Buffer.chunkOp b len).map (·.2)
  | .opExtend slice => some (Buffer.extendOp b slice)

/-- Run a sequence of buffer operations from state `b`; `none` as soon as
one of them panics. -/
def Buffer.runOps (b : Buffer) : List BufOp → Option Buffer
  | [] => some b
  | op :: ops =>
    match Buffer.applyOp b op with
    | some b2 => Buffer.runOps b2 ops
    | none => none

/-- The invariant claimed by the specification:
`0 ≤ rpos ≤ wpos ≤ end ≤ capacity`. -/
def Buffer.claimedInv (b : Buffer) : Prop :=
  b.rpos ≤ b.wpos ∧ b.wpos ≤ b.endp ∧ b.endp ≤ b.data.length

instance : DecidablePred Buffer.claimedInv := fun b =>
  inferInstanceAs (Decidable (b.rpos ≤ b.wpos ∧ b.wpos ≤ b.endp ∧ b.endp ≤ b.data.length))

/-- The invariant the code actually maintains: `wpos ≤ end` and
`rpos ≤ capacity`. -/
def Buffer.codeInv (b : Buffer) : Prop :=
  b.wpos ≤ b.endp ∧ b.rpos ≤ b.data.length

theorem vecResize_length (l : List Nat) (n : Nat) :
    (vecResize l n).length = n := by
  simp [vecResize]
  omega

theorem Buffer.readOp_codeInv (b : Buffer) (input : List Nat)
    (h : Buffer.codeInv b) : Buffer.codeInv (Buffer.readOp b input).1 := by
  obtain ⟨h1, h2⟩ := h
  have hD : b.data.length ≤
      (if b.data.length / 2 ≤ b.endp then
        vecResize b.data (if b.data.length = 0 then 4096 else b.data.length * 2)
      else b.data).length := by
    split
    · rw [vecResize_length]
      split <;> omega
    · exact Nat.le_refl _
  unfold Buffer.codeInv Buffer.readOp
  refine ⟨Nat.le_trans h1 (Nat.le_add_right _ _), ?_⟩
  simp only [List.length_append, List.length_take, List.length_drop]
  omega

theorem Buffer.writeOp_codeInv (b : Buffer) (cap : Nat) (h : Buffer.codeInv b)
    (r : Buffer × Bool × Nat) (hr : Buffer.writeOp b cap = some r) :
    Buffer.codeInv r.1 := by
  unfold Buffer.writeOp at hr
  split at hr
  · split at hr
    · injection hr with hr
      subst hr
      constructor
      · show b.wpos + min cap (b.endp - b.wpos) ≤ b.endp
        omega
      · exact h.2
    · cases hr
  · injection hr with hr
    subst hr
    exact h

theorem Buffer.getcOp_codeInv (b : Buffer) (h : Buffer.codeInv b)
    (r : Nat × Buffer) (hr : Buffer.getcOp b = some r) :
    Buffer.codeInv r.2 := by
  unfold Buffer.getcOp at hr
  split at hr
  · injection hr with hr
    subst hr
    exact ⟨h.1, by rename_i hlt; exact hlt⟩
  · cases hr

theorem Buffer.tailOp_codeInv (b : Buffer) (h : Buffer.codeInv b)
    (r : List Nat × Buffer) (hr : Buffer.tailOp b = some r) :
    Buffer.codeInv r.2 := by
  unfold Buffer.tailOp at hr
  split at hr
  · injection hr with hr
    subst hr
    exact ⟨h.1, by rename_i hc; exact hc.2⟩
  · cases hr

theorem Buffer.chunkOp_codeInv (b : Buffer) (len : Nat) (h : Buffer.codeInv b)
    (r : List Nat × Buffer) (hr : Buffer.chunkOp b len = some r) :
    Buffer.codeInv r.2 := by
  unfold Buffer.chunkOp at hr
  split at hr
  · injection hr with hr
    subst hr
    exact ⟨h.1, by rename_i hc; exact hc.2⟩
  · cases hr

theorem Buffer.applyOp_codeInv {b b2 : Buffer} (op : BufOp)
    (hinv : Buffer.codeInv b) (h : Buffer.applyOp b op = some b2) :
    Buffer.codeInv b2 := by
  cases op with
  | opReset =>
    simp only [Buffer.applyOp, Buffer.resetOp, Option.some.injEq] at h
    subst h
    exact ⟨Nat.le_refl 0, Nat.le_refl 0⟩
  | opRead input =>
    simp only [Buffer.applyOp, Option.some.injEq] at h
    subst h
    exact Buffer.readOp_codeInv b input hinv
  | opWrite cap =>
    simp only [Buffer.applyOp, Option.map_eq_some'] at h
    obtain ⟨r, hr, hb⟩ := h
    subst hb
    exact Buffer.writeOp_codeInv b cap hinv r hr
  | opGetc =>
    simp only [Buffer.applyOp, Option.map_eq_some'] at h
    obtain ⟨r, hr, hb⟩ := h
    subst hb
    exact Buffer.getcOp_codeInv b hinv r hr
  | opTail =>
    simp only [Buffer.applyOp, Option.map_eq_some'] at h
    obtain ⟨r, hr, hb⟩ := h
    subst hb
    exact Buffer.tailOp_codeInv b hinv r hr
  | opChunk len =>
    simp only [Buffer.applyOp, Option.map_eq_some'] at h
    obtain ⟨r, hr, hb⟩ := h
    subst hb
    exact Buffer.chunkOp_codeInv b len hinv r hr
  | opExtend slice =>
    simp only [Buffer.applyOp, Buffer.extendOp, Option.some.injEq] at h
    subst h
    obtain ⟨h1, h2⟩ := hinv
    exact ⟨by simp only []; omega, by simp; omega⟩

theorem Buffer.runOps_codeInv {b b2 : Buffer} (ops : List BufOp)
    (hinv : Buffer.codeInv b) (h : Buffer.runOps b ops = some b2) :
    Buffer.codeInv b2 := by
  induction ops generalizing b with
  | nil => simp [Buffer.runOps] at h; subst h; exact hinv
  | cons op ops ih =>
    unfold Buffer.runOps at h
    cases hap : Buffer.applyOp b op with
    | none => rw [hap] at h; cases h
    | some bmid =>
      rw [hap] at h
      exact ih (Buffer.applyOp_codeInv op hinv hap) h

/-- **C8, counterexample.**  Three short runs from the default buffer refute
the claimed invariant chain `0 ≤ rpos ≤ wpos ≤ end ≤ capacity`: after
`extend [65]; getc` the read cursor (1) exceeds the drain cursor `wpos` (0);
after `extend [65]; read [66, 67]` the end cursor (3) exceeds the capacity
(2); and after `extend [65]; read []; getc; getc` the read cursor (2)
exceeds the end cursor (1). -/
theorem buffer_claimed_inv_counterexample :
    (Buffer.runOps Buffer.init [.opExtend [65], .opGetc] = some ⟨[65], 1, 0, 1⟩
      ∧ ¬ Buffer.claimedInv ⟨[65], 1, 0, 1⟩)
    ∧ (Buffer.runOps Buffer.init [.opExtend [65], .opRead [66, 67]]
        = some ⟨[66, 67], 0, 0, 3⟩
      ∧ ¬ Buffer.claimedInv ⟨[66, 67], 0, 0, 3⟩)
    ∧ (Buffer.runOps Buffer.init [.opExtend [65], .opRead [], .opGetc, .opGetc]
        = some ⟨[65, 0], 2, 0, 1⟩
      ∧ ¬ Buffer.claimedInv ⟨[65, 0], 2, 0, 1⟩) := by
  exact ⟨⟨rfl, by decide⟩, ⟨rfl, by decide⟩, ⟨rfl, by decide⟩⟩

/-- **C8 (amended).**  For every sequence of buffer operations applied from
the default state that completes without panicking, the invariant
`wpos ≤ end ∧ rpos ≤ capacity` holds after every operation (every prefix of
a completed run is itself a completed run); the read cursor `rpos` may
however overtake the drain cursor `wpos` and the end cursor, and `end` may
exceed the capacity. -/
theorem buffer_invariant_holds (ops : List BufOp) (b : Buffer)
    (h : Buffer.runOps Buffer.init ops = some b) : Buffer.codeInv b :=
  Buffer.runOps_codeInv ops ⟨Nat.le_refl 0, Nat.le_refl 0⟩ h

theorem buffer_invariant_holds_witness : Buffer.codeInv ⟨[65], 1, 0, 1⟩ :=
  buffer_invariant_holds [.opExtend [65], .opGetc] ⟨[65], 1, 0, 1⟩ rfl

/-- **C3.**  `Buffer::read` does not append at offset `end`: the code calls
`stream.read(&mut self.data)`, which writes the received bytes at offset 0,
clobbering the buffered prefix `[0..end)` and leaving stale bytes in the
suffix.  On a buffer holding the single unread byte 65 (`end = 1`), reading
the byte 66 from the socket yields vector `[66, 0]` — not the `[65, 66]`
that appending to the free suffix would produce — while `end` still
advances to 2.  The growth rule and the `(eof, n)` result match the claim. -/
theorem buffer_read_overwrites_prefix :
    Buffer.readOp (Buffer.extendOp Buffer.init [65]) [66]
      = (⟨[66, 0], 0, 0, 2⟩, false, 1)
    ∧ ([66, 0] : List Nat) ≠ [65, 66] := by
  exact ⟨rfl, by decide⟩

/-! ## Variable (src/variable.rs) -/

/-- The character `$`. -/
def dollarChar : Char := Char.ofNat 36

/-- The opening curly brace character. -/
def lbrace : Char := Char.ofNat 123

/-- The closing curly brace character. -/
def rbrace : Char := Char.ofNat 125

/-- One part of a composite variable (`Part` in `src/variable.rs`). -/
inductive Part where
  | text (s : List Char)
  | var (s : List Char)
deriving DecidableEq, Repr

/-- Scans for the closing brace: returns the characters before the first
closing brace and the rest after it (`none` when there is no closing
brace). -/
def scanNameAux : List Char → Option (List Char × List Char)
  | [] => none
  | c :: cs =>
    if c = rbrace then some ([], cs)
    else (scanNameAux cs).map (fun r => (c :: r.1, r.2))

/-- The `[^}]+}` tail of the pattern `\$\{[^}]+}` used by
`Variable::complex`: at least one non-brace character followed by the
closing brace.  Returns the name and the rest of the input. -/
def scanName (l : List Char) : Option (List Char × List Char) :=
  match scanNameAux l with
  | some ([], _) => none
  | some (nm, rest) => some (nm, rest)
  | none => none

/-- Leftmost match of the regex `(\$\{[^}]+})` from `Variable::complex`
(`Regex::find_iter` yields leftmost, non-overlapping matches): returns the
text before the match, the variable name inside the braces, and the rest
after the match. -/
def findVar : List Char → Option (List Char × List Char × List Char)
  | [] => none
  | c :: cs =>
    if c = dollarChar then
      match cs with
      | c2 :: cs2 =>
        if c2 = lbrace then
          match scanName cs2 with
          | some (name, rest) => some ([], name, rest)
          | none => (findVar cs).map (fun r => (c :: r.1, r.2.1, r.2.2))
        else (findVar cs).map (fun r => (c :: r.1, r.2.1, r.2.2))
      | [] => none
    else (findVar cs).map (fun r => (c :: r.1, r.2.1, r.2.2))

theorem scanNameAux_length {l nm rest : List Char}
    (h : scanNameAux l = some (nm, rest)) : rest.length < l.length := by
  induction l generalizing nm rest with
  | nil => cases h
  | cons c cs ih =>
    unfold scanNameAux at h
    split at h
    · injection h with h
      cases h
      simp
    · cases haux : scanNameAux cs with
      | none => rw [haux] at h; cases h
      | some r =>
        obtain ⟨nm1, rst1⟩ := r
        rw [haux] at h
        injection h with h
        cases h
        have := ih haux
        simp
        omega

theorem scanName_length {l nm rest : List Char}
    (h : scanName l = some (nm, rest)) : rest.length < l.length := by
  unfold scanName at h
  split at h
  · cases h
  · rename_i r heq
    injection h with h
    cases h
    exact scanNameAux_length heq
  · cases h

theorem findVar_length {s pre name rest : List Char}
    (h : findVar s = some (pre, name, rest)) : rest.length < s.length := by
  induction s generalizing pre name rest with
  | nil => cases h
  | cons c cs ih =>
    simp only [findVar] at h
    split at h
    · split at h
      · split at h
        · split at h
          · rename_i heq
            injection h with h
            injection h with h1 h2
            injection h2 with h2 h3
            subst h1; subst h2; subst h3
            have := scanName_length heq
            simp only [List.length_cons]
            omega
          · rw [Option.map_eq_some'] at h
            obtain ⟨r, hr, heq2⟩ := h
            obtain ⟨pre1, nm1, rst1⟩ := r
            injection heq2 with h1 h2
            injection h2 with h2 h3
            subst h1; subst h2; subst h3
            have := ih hr
            simp only [List.length_cons] at this ⊢
            omega
        · rw [Option.map_eq_some'] at h
          obtain ⟨r, hr, heq2⟩ := h
          obtain ⟨pre1, nm1, rst1⟩ := r
          injection heq2 with h1 h2
          injection h2 with h2 h3
          subst h1; subst h2; subst h3
          have := ih hr
          simp only [List.length_cons] at this ⊢
          omega
      · cases h
    · rw [Option.map_eq_some'] at h
      obtain ⟨r, hr, heq2⟩ := h
      obtain ⟨pre1, nm1, rst1⟩ := r
      injection heq2 with h1 h2
      injection h2 with h2 h3
      subst h1; subst h2; subst h3
      have := ih hr
      simp only [List.length_cons] at this ⊢
      omega

/-- Models `str::trim_start_matches` with the pattern `${`: the prefix
`${` is removed repeatedly, as long as it is present. -/
def stripLeadingVarOpen : List Char → List Char
  | [] => []
  | [c] => [c]
  | c1 :: c2 :: rest =>
    if c1 = dollarChar ∧ c2 = lbrace then stripLeadingVarOpen rest
    else c1 :: c2 :: rest

/-- Models `str::trim_end_matches` with the pattern of a closing brace:
every trailing closing brace is removed. -/
def trimTrailingRBrace (s : List Char) : List Char :=
  (s.reverse.dropWhile (fun c => c = rbrace)).reverse

/-- The variable name `Variable::complex` stores for a match whose brace
contents are `name`: `src/variable.rs` line 70 computes
`m.as_str().trim_start_matches("${").trim_end_matches("}")` on the full
match text `${` ++ `name` ++ `}`.  Because `trim_start_matches` strips
its pattern repeatedly, any further leading `${` pairs inside the braces
are removed as well. -/
def rustVarName (name : List Char) : List Char :=
  trimTrailingRBrace
    (stripLeadingVarOpen (dollarChar :: lbrace :: (name ++ [rbrace])))

/-- `Variable::complex`: splits the input at each regex match into
`Text`/`Var` parts (the text before each match, then the matched name
trimmed of all leading `${` and trailing `}`) with the remaining text
last, exactly as the `find_iter` loop does. -/
def complexParts (s : List Char) : List Part :=
  match h : findVar s with
  | none => [Part.text s]
  | some (pre, name, rest) =>
    Part.text pre :: Part.var (rustVarName name) :: complexParts rest
termination_by s.length
decreasing_by
  exact findVar_length h

/-- The inner representation of `Variable` (the `Lazy` alternative takes a
host-language closure and is outside the claims). -/
inductive VariableM where
  | simpleV (s : List Char)
  | cv (parts : List Part)

/-- `Variable::simple`. -/
def VariableM.simple (s : List Char) : VariableM := .simpleV s

/-- `Variable::complex`. -/
def VariableM.complex (s : List Char) : VariableM := .cv (complexParts s)

/-- `Variable::expand_with`: `Text` parts are copied, `Var` parts are
looked up through `f` (`EMPTY_STR` when absent), and everything is
concatenated; a `Simple` variable yields its stored string. -/
def VariableM.expandWith (v : VariableM) (f : List Char → Option (List Char)) :
    List Char :=
  match v with
  | .simpleV s => s
  | .cv ps =>
    (ps.map (fun p =>
      match p with
      | .text t => t
      | .var v =>
        match f v with
        | some s => s
        | none => [])).flatten

/-- Modelled from the claim's words: the input with each `${name}`
occurrence replaced by `f name` (the empty string when `f name = none`)
and all text outside the occurrences preserved unchanged, scanning left to
right. -/
def specSubst (f : List Char → Option (List Char)) : List Char → List Char
  | [] => []
  | c :: cs =>
    if c = dollarChar then
      match cs with
      | c2 :: cs2 =>
        if c2 = lbrace then
          match h : scanName cs2 with
          | some (name, rest) => ((f name).getD []) ++ specSubst f rest
          | none => c :: specSubst f (c2 :: cs2)
        else c :: specSubst f (c2 :: cs2)
      | [] => [c]
    else c :: specSubst f cs
termination_by s => s.length
decreasing_by
  · have := scanName_length h
    simp only [List.length_cons]
    omega
  · simp only [List.length_cons]
    omega
  · simp only [List.length_cons]
    omega
  · simp only [List.length_cons]
    omega

/-- Modelled from the amended claim's words: like `specSubst`, but each
`${name}` occurrence is replaced by `f` applied to the brace contents
with all leading `${` pairs and trailing closing braces trimmed away
(`rustVarName`) — the name the program actually looks up. -/
def specSubstT (f : List Char → Option (List Char)) (s : List Char) :
    List Char :=
  specSubst (fun nm => f (rustVarName nm)) s

theorem complexParts_of_none {s : List Char} (h : findVar s = none) :
    complexParts s = [Part.text s] := by
  rw [complexParts.eq_def]
  split
  · rfl
  · rename_i pre name rest heq
    rw [h] at heq
    cases heq

theorem complexParts_of_some {s pre nm rst : List Char}
    (h : findVar s = some (pre, nm, rst)) :
    complexParts s
      = Part.text pre :: Part.var (rustVarName nm) :: complexParts rst := by
  rw [complexParts.eq_def]
  split
  · rename_i heq
    rw [h] at heq
    cases heq
  · rename_i pre1 nm1 rst1 heq
    rw [h] at heq
    injection heq with heq
    injection heq with h1 h2
    injection h2 with h2 h3
    subst h1; subst h2; subst h3
    rfl

theorem specSubst_nil (f : List Char → Option (List Char)) :
    specSubst f [] = [] := by
  rw [specSubst.eq_def]

theorem specSubst_not_dollar (f : List Char → Option (List Char))
    {c : Char} (cs : List Char) (hcd : ¬ c = dollarChar) :
    specSubst f (c :: cs) = c :: specSubst f cs := by
  rw [specSubst.eq_def]
  split
  · rename_i heq
    simp at heq
  · rename_i x c1 cs1 heq
    injection heq with e1 e2
    subst e1; subst e2
    rw [if_neg hcd]

theorem specSubst_dollar_only (f : List Char → Option (List Char)) :
    specSubst f [dollarChar] = [dollarChar] := by
  rw [specSubst.eq_def]
  rfl

theorem specSubst_not_lbrace (f : List Char → Option (List Char))
    {c2 : Char} (cs2 : List Char) (hcl : ¬ c2 = lbrace) :
    specSubst f (dollarChar :: c2 :: cs2)
      = dollarChar :: specSubst f (c2 :: cs2) := by
  rw [specSubst.eq_def]
  split
  · rename_i heq
    simp at heq
  · rename_i x c1 cs1 heq
    injection heq with e1 e2
    subst e1; subst e2
    rw [if_pos rfl]
    split
    · rename_i x2 c3 cs3 heq2
      injection heq2 with e3 e4
      subst e3; subst e4
      rw [if_neg hcl]
    · rename_i heq2
      simp at heq2

theorem specSubst_scan_none (f : List Char → Option (List Char))
    (cs2 : List Char) (hsn : scanName cs2 = none) :
    specSubst f (dollarChar :: lbrace :: cs2)
      = dollarChar :: specSubst f (lbrace :: cs2) := by
  rw [specSubst.eq_def]
  split
  · rename_i heq
    simp at heq
  · rename_i x c1 cs1 heq
    injection heq with e1 e2
    subst e1; subst e2
    rw [if_pos rfl]
    split
    · rename_i x2 c3 cs3 heq2
      injection heq2 with e3 e4
      subst e3; subst e4
      rw [if_pos rfl]
      split
      · rename_i nm rst heq3
        rw [hsn] at heq3
        cases heq3
      · rfl
    · rename_i heq2
      simp at heq2

theorem specSubst_scan_some (f : List Char → Option (List Char))
    {cs2 nm rst : List Char} (hsn : scanName cs2 = some (nm, rst)) :
    specSubst f (dollarChar :: lbrace :: cs2)
      = ((f nm).getD []) ++ specSubst f rst := by
  rw [specSubst.eq_def]
  split
  · rename_i heq
    simp at heq
  · rename_i x c1 cs1 heq
    injection heq with e1 e2
    subst e1; subst e2
    rw [if_pos rfl]
    split
    · rename_i x2 c3 cs3 heq2
      injection heq2 with e3 e4
      subst e3; subst e4
      rw [if_pos rfl]
      split
      · rename_i nm1 rst1 heq3
        rw [hsn] at heq3
        injection heq3 with heq3
        injection heq3 with h1 h2
        subst h1; subst h2
        rfl
      · rename_i heq3
        rw [hsn] at heq3
        cases heq3
    · rename_i heq2
      simp at heq2

theorem specSubst_of_findVar_none (f : List Char → Option (List Char)) :
    ∀ n s, s.length ≤ n → findVar s = none → specSubst f s = s := by
  intro n
  induction n with
  | zero =>
    intro s hs _
    match s, hs with
    | [], _ => exact specSubst_nil f
  | succ n ih =>
    intro s hs h
    match s with
    | [] => exact specSubst_nil f
    | c :: cs =>
      simp only [findVar] at h
      split at h
      · rename_i hcd
        subst hcd
        split at h
        · rename_i c2 cs2
          split at h
          · rename_i hcl
            subst hcl
            split at h
            · cases h
            · rename_i heq
              rw [Option.map_eq_none'] at h
              rw [specSubst_scan_none f cs2 heq,
                ih (lbrace :: cs2) (by simp at hs ⊢; omega) h]
          · rename_i hcl
            rw [Option.map_eq_none'] at h
            rw [specSubst_not_lbrace f cs2 hcl,
              ih (c2 :: cs2) (by simp at hs ⊢; omega) h]
        · exact specSubst_dollar_only f
      · rename_i hcd
        rw [Option.map_eq_none'] at h
        rw [specSubst_not_dollar f cs hcd,
          ih cs (by simp at hs ⊢; omega) h]

theorem specSubst_of_findVar_some (f : List Char → Option (List Char)) :
    ∀ n s pre name rest, s.length ≤ n →
      findVar s = some (pre, name, rest) →
      specSubst f s = pre ++ ((f name).getD []) ++ specSubst f rest := by
  intro n
  induction n with
  | zero =>
    intro s pre name rest hs h
    match s, hs with
    | [], _ => cases h
  | succ n ih =>
    intro s pre name rest hs h
    match s with
    | [] => cases h
    | c :: cs =>
      simp only [findVar] at h
      split at h
      · rename_i hcd
        subst hcd
        split at h
        · rename_i c2 cs2
          split at h
          · rename_i hcl
            subst hcl
            split at h
            · rename_i nm1 rst1 heq
              injection h with h
              injection h with h1 h2
              injection h2 with h2 h3
              subst h1; subst h2; subst h3
              rw [specSubst_scan_some f heq]
              simp
            · rename_i heq
              rw [Option.map_eq_some'] at h
              obtain ⟨r, hr, heq2⟩ := h
              obtain ⟨pre1, nm1, rst1⟩ := r
              injection heq2 with h1 h2
              injection h2 with h2 h3
              subst h1; subst h2; subst h3
              rw [specSubst_scan_none f cs2 heq,
                ih (lbrace :: cs2) pre1 nm1 rst1 (by simp at hs ⊢; omega) hr]
              simp
          · rename_i hcl
            rw [Option.map_eq_some'] at h
            obtain ⟨r, hr, heq2⟩ := h
            obtain ⟨pre1, nm1, rst1⟩ := r
            injection heq2 with h1 h2
            injection h2 with h2 h3
            subst h1; subst h2; subst h3
            rw [specSubst_not_lbrace f cs2 hcl,
              ih (c2 :: cs2) pre1 nm1 rst1 (by simp at hs ⊢; omega) hr]
            simp
        · cases h
      · rename_i hcd
        rw [Option.map_eq_some'] at h
        obtain ⟨r, hr, heq2⟩ := h
        obtain ⟨pre1, nm1, rst1⟩ := r
        injection heq2 with h1 h2
        injection h2 with h2 h3
        subst h1; subst h2; subst h3
        rw [specSubst_not_dollar f cs hcd,
          ih cs pre1 nm1 rst1 (by simp at hs ⊢; omega) hr]
        simp

theorem expandWith_complex_aux (f : List Char → Option (List Char)) :
    ∀ n s, s.length ≤ n →
      VariableM.expandWith (VariableM.complex s) f = specSubstT f s := by
  intro n
  induction n with
  | zero =>
    intro s hs
    match s, hs with
    | [], _ =>
      unfold specSubstT
      rw [specSubst_nil]
      dsimp only [VariableM.complex, VariableM.expandWith]
      rw [complexParts_of_none (s := []) rfl]
      simp
  | succ n ih =>
    intro s hs
    cases hfv : findVar s with
    | none =>
      unfold specSubstT
      dsimp only [VariableM.complex, VariableM.expandWith]
      rw [complexParts_of_none hfv,
        specSubst_of_findVar_none (fun nm => f (rustVarName nm)) (n + 1) s hs hfv]
      simp
    | some r =>
      obtain ⟨pre, name, rest⟩ := r
      have hrest := findVar_length hfv
      have hih := ih rest (by omega)
      unfold specSubstT at hih ⊢
      dsimp only [VariableM.complex, VariableM.expandWith] at hih ⊢
      rw [complexParts_of_some hfv,
        specSubst_of_findVar_some (fun nm => f (rustVarName nm))
          (n + 1) s pre name rest hs hfv]
      simp only [List.map_cons, List.flatten_cons, hih]
      cases f (rustVarName name) <;> simp

/-- **C10 (amended).**  `Variable::complex(s)` expanded through
`expand_with(f, r)` yields `s` with every `${name}` occurrence replaced
by `f` applied to the brace contents stripped of all leading `${` pairs
and trailing `}` — the
`trim_start_matches("${").trim_end_matches("}")` of `src/variable.rs`
line 70 — the empty string when that lookup misses, and all other text
preserved; a `Simple` variable always expands to its stored string,
independent of `f`. -/
theorem variable_expand_amended (f : List Char → Option (List Char))
    (s t : List Char) :
    VariableM.expandWith (VariableM.complex s) f = specSubstT f s
    ∧ VariableM.expandWith (VariableM.simple t) f = t :=
  ⟨expandWith_complex_aux f s.length s (Nat.le_refl _), rfl⟩

/-- The input `${${a}` for the C10 counterexample: the regex match is the
whole string and its brace contents are `${a`. -/
def cexVarInput : List Char :=
  [dollarChar, lbrace, dollarChar, lbrace, Char.ofNat 97, rbrace]

/-- A lookup distinguishing the trimmed name `a` (mapped to `X`) from the
raw brace contents `${a` (mapped to `Y`). -/
def cexVarLookup (nm : List Char) : Option (List Char) :=
  if nm = [Char.ofNat 97] then some [Char.ofNat 88]
  else if nm = [dollarChar, lbrace, Char.ofNat 97] then some [Char.ofNat 89]
  else none

/-- **C10 (counterexample).**  On the input `${${a}` the program expands
to `f "a"`: `trim_start_matches("${")` strips its pattern repeatedly, so
the stored variable name is `a`, not the brace contents `${a`.  The
claimed substitution — each `${name}` occurrence replaced by `f name`
with `name` the text between the braces — looks up `${a` instead, and
the two results differ under a lookup that distinguishes the names. -/
theorem variable_expand_counterexample :
    VariableM.expandWith (VariableM.complex cexVarInput) cexVarLookup
      = [Char.ofNat 88]
    ∧ specSubst cexVarLookup cexVarInput = [Char.ofNat 89]
    ∧ VariableM.expandWith (VariableM.complex cexVarInput) cexVarLookup
        ≠ specSubst cexVarLookup cexVarInput := by
  have hfv : findVar cexVarInput
      = some ([], [dollarChar, lbrace, Char.ofNat 97], []) := by decide
  have hscan : scanName [dollarChar, lbrace, Char.ofNat 97, rbrace]
      = some ([dollarChar, lbrace, Char.ofNat 97], []) := by decide
  have hparts : complexParts cexVarInput
      = [Part.text [],
          Part.var (rustVarName [dollarChar, lbrace, Char.ofNat 97]),
          Part.text []] := by
    rw [complexParts_of_some hfv, complexParts_of_none (s := []) rfl]
  have he : VariableM.expandWith (VariableM.complex cexVarInput) cexVarLookup
      = [Char.ofNat 88] := by
    dsimp only [VariableM.complex, VariableM.expandWith]
    rw [hparts]
    decide
  have hb : specSubst cexVarLookup cexVarInput = [Char.ofNat 89] := by
    rw [show cexVarInput
        = dollarChar :: lbrace :: [dollarChar, lbrace, Char.ofNat 97, rbrace]
        from rfl]
    rw [specSubst_scan_some cexVarLookup hscan, specSubst_nil]
    decide
  refine ⟨he, hb, ?_⟩
  rw [he, hb]
  decide

/-! ## RegexRouter (src/http/routers/re.rs) -/

/-- One route of the `RegexRouter`: its pattern string and the per-method
context map (`HashMap<String, Context>`, modelled as an association list).
The compiled `Regex` is not needed for `replace` and is omitted; pattern
compilation (which can fail on an invalid regex) is outside this
embedding. -/
structure RegexRoute (Ctx : Type) where
  pattern : List Char
  context : List (List Char × Ctx)
deriving DecidableEq, Repr

/-- `HashMap::entry(k).or_insert(v)`: inserts `(k, v)` only when the key is
absent. -/
def orInsert {Ctx : Type} (m : List (List Char × Ctx)) (k : List Char) (v : Ctx) :
    List (List Char × Ctx) :=
  if m.any (fun p => p.1 == k) then m else m ++ [(k, v)]

/-- `RegexRouter::replace` (the method string already defaulted to
`"*"` by the caller when absent).  The loop over `0..routes.len()`:
on `routes[i].pattern == pattern` the route is removed and `routes[i]`
is indexed again — the element that followed, or a panic (`none`) when
the removed route was last; on `pattern.len() > routes[i].pattern.len()`
a new route is inserted at `i`; after the loop a new route is pushed. -/
def replaceGo {Ctx : Type} (pattern method : List Char) (c : Ctx) :
    List (RegexRoute Ctx) → Option (List (RegexRoute Ctx))
  | [] => some [⟨pattern, orInsert [] method c⟩]
  | r :: rest =>
    if r.pattern = pattern then
      match rest with
      | [] => none
      | r2 :: rest2 => some ({ r2 with context := orInsert r2.context method c } :: rest2)
    else if r.pattern.length < pattern.length then
      some (⟨pattern, orInsert [] method c⟩ :: r :: rest)
    else
      (replaceGo pattern method c rest).map (r :: ·)

theorem replaceGo_found {Ctx : Type} (p m : List Char) (c : Ctx)
    (pre rest : List (RegexRoute Ctx)) (r : RegexRoute Ctx)
    (hr : r.pattern = p)
    (hpre : ∀ r' ∈ pre, ¬ r'.pattern = p ∧ ¬ r'.pattern.length < p.length) :
    replaceGo p m c (pre ++ r :: rest)
      = match rest with
        | [] => none
        | r2 :: rest2 =>
          some (pre ++ ({ r2 with context := orInsert r2.context m c } :: rest2)) := by
  induction pre with
  | nil =>
    simp only [List.nil_append, replaceGo, if_pos hr]
  | cons q pre ih =>
    have hq := hpre q (List.mem_cons_self q pre)
    have hpre2 : ∀ r' ∈ pre, ¬ r'.pattern = p ∧ ¬ r'.pattern.length < p.length :=
      fun r' hmem => hpre r' (List.mem_cons_of_mem q hmem)
    simp only [List.cons_append, replaceGo, if_neg hq.1, if_neg hq.2, List.append_eq]
    rw [ih hpre2]
    cases rest <;> rfl

/-- **C9.**  When the routes vector is `pre ++ [route with pattern p] ++ rest`
and the loop reaches that route (no earlier route has pattern `p` or a
strictly shorter pattern) and `p` occurs only there, `replace` removes the
route and immediately indexes the vector at the same position again: when
the removed route was last this panics (out-of-bounds, modelled `none`);
otherwise the method/context entry lands in the map of the unrelated route
that followed (via `entry(method).or_insert(context)`), and no route with
pattern `p` remains registered. -/
theorem regexRouter_replace_offByOne {Ctx : Type} (p m : List Char) (c : Ctx)
    (pre rest : List (RegexRoute Ctx)) (r : RegexRoute Ctx)
    (hr : r.pattern = p)
    (hpre : ∀ r' ∈ pre, ¬ r'.pattern = p ∧ ¬ r'.pattern.length < p.length)
    (huniq : ∀ r' ∈ pre ++ rest, ¬ r'.pattern = p) :
    (rest = [] → replaceGo p m c (pre ++ [r]) = none)
    ∧ (∀ r2 rest2, rest = r2 :: rest2 →
        replaceGo p m c (pre ++ r :: r2 :: rest2)
          = some (pre ++ ({ r2 with context := orInsert r2.context m c } :: rest2))
        ∧ ∀ r' ∈ pre ++ ({ r2 with context := orInsert r2.context m c } :: rest2),
            ¬ r'.pattern = p) := by
  constructor
  · intro hrest
    have := replaceGo_found p m c pre [] r hr hpre
    simpa using this
  · intro r2 rest2 hrest
    subst hrest
    constructor
    · have := replaceGo_found p m c pre (r2 :: rest2) r hr hpre
      simpa using this
    · intro r' hmem
      rw [List.mem_append] at hmem
      cases hmem with
      | inl hmem => exact huniq r' (List.mem_append_left (r2 :: rest2) hmem)
      | inr hmem =>
        rw [List.mem_cons] at hmem
        cases hmem with
        | inl heq =>
          subst heq
          have := huniq r2 (List.mem_append_right pre (List.mem_cons_self r2 rest2))
          exact this
        | inr hmem =>
          exact huniq r' (List.mem_append_right pre (List.mem_cons_of_mem r2 hmem))

theorem regexRouter_replace_offByOne_witness :
    replaceGo ['a', 'a'] ['*'] (7 : Nat)
        [⟨['a', 'a'], []⟩, ⟨['b'], []⟩]
      = some [⟨['b'], [(['*'], 7)]⟩]
    ∧ ∀ r' ∈ [(⟨['b'], [(['*'], 7)]⟩ : RegexRoute Nat)], ¬ r'.pattern = ['a', 'a'] := by
  have h := regexRouter_replace_offByOne ['a', 'a'] ['*'] (7 : Nat)
    [] [⟨['b'], []⟩] ⟨['a', 'a'], []⟩ rfl
    (by intro r' hmem; cases hmem)
    (by decide)
  have h2 := (h.2 ⟨['b'], []⟩ [] rfl)
  refine ⟨?_, ?_⟩
  · have := h2.1
    simpa [orInsert] using this
  · have := h2.2
    simpa [orInsert] using this

/-! ## ConnectionPool (src/connection_pool.rs) -/

/-- A pooled upstream connection (`Peer`): socket validity, the served
request count, the keep-alive expiry deadline (`stream.exp`) and the
registration token.  The `Arc` bookkeeping used for idle/active counters
and the `weak`/`take` identity games are outside this embedding. -/
structure PeerM where
  valid : Bool
  requests : Nat
  deadline : Option Nat
  token : Nat
deriving DecidableEq, Repr

/-- `ConnectionPool` state relevant to `set_keepalive`: the limits and the
idle peer set (`peers` BTreeSet); `idle()` is modelled as the size of that
set. -/
structure PoolM where
  maxKeepalive : Nat
  keepaliveRequests : Nat
  keepaliveTimeout : Nat
  idleSet : List PeerM
deriving DecidableEq, Repr

/-- `ConnectionPool::idle()`. -/
def PoolM.idle (p : PoolM) : Nat := p.idleSet.length

/-- What became of a peer handed back to the pool. -/
inductive KeepaliveOutcome where
  | skippedInvalid
  | rejectedIdleFull
  | closedByRequests
  | inserted
deriving DecidableEq, Repr

/-- `ConnectionPool::set_keepalive` (reached from both `Drop for Peer` and
`Peer::set_keepalive`): skip an invalid socket; reject when
`idle() == max_keepalive`; increment `requests`; when it reaches
`keepalive_requests` drop the peer (socket closed); otherwise set the idle
deadline from `timeout.unwrap_or(keepalive_timeout)`, insert into the idle
set, and send `Message::Add` (third component: tokens of sent `Add`
messages) to the monitor thread. -/
def parkedPeer (pool : PoolM) (peer : PeerM) (timeout : Option Nat) (now : Nat) :
    PeerM :=
  { peer with
      requests := peer.requests + 1
      deadline := some (now + timeout.getD pool.keepaliveTimeout) }

def setKeepalive (pool : PoolM) (peer : PeerM) (timeout : Option Nat) (now : Nat) :
    PoolM × KeepaliveOutcome × List Nat :=
  if peer.valid = false then (pool, .skippedInvalid, [])
  else if pool.idle = pool.maxKeepalive then (pool, .rejectedIdleFull, [])
  else if peer.requests + 1 = pool.keepaliveRequests then (pool, .closedByRequests, [])
  else
    ({ pool with idleSet := pool.idleSet ++ [parkedPeer pool peer timeout now] },
      .inserted, [peer.token])

/-- **C7.**  `set_keepalive` skips invalid sockets untouched; rejects the
peer when `idle = max_keepalive`; otherwise increments `requests` — so the
count strictly grows on every successful park, and any peer present in
the resulting idle set is either an old member or carries the incremented
count; when the incremented count reaches `keepalive_requests` the peer is
destroyed instead of inserted; otherwise its idle deadline is set, it is
appended to the idle set, and exactly one `Add` message goes to the
monitor. -/
theorem pool_set_keepalive_spec (pool : PoolM) (peer : PeerM)
    (timeout : Option Nat) (now : Nat) :
    (peer.valid = false →
      setKeepalive pool peer timeout now = (pool, .skippedInvalid, []))
    ∧ (peer.valid = true → pool.idle = pool.maxKeepalive →
      setKeepalive pool peer timeout now = (pool, .rejectedIdleFull, []))
    ∧ (peer.valid = true → ¬ pool.idle = pool.maxKeepalive →
       peer.requests + 1 = pool.keepaliveRequests →
      setKeepalive pool peer timeout now = (pool, .closedByRequests, []))
    ∧ (peer.valid = true → ¬ pool.idle = pool.maxKeepalive →
       ¬ peer.requests + 1 = pool.keepaliveRequests →
      setKeepalive pool peer timeout now
        = ({ pool with idleSet := pool.idleSet ++ [parkedPeer pool peer timeout now] },
            .inserted, [peer.token]))
    ∧ (∀ q ∈ (setKeepalive pool peer timeout now).1.idleSet,
        q ∈ pool.idleSet ∨ q.requests = peer.requests + 1) := by
  refine ⟨?_, ?_, ?_, ?_, ?_⟩
  · intro hv
    simp [setKeepalive, hv]
  · intro hv hidle
    simp [setKeepalive, hv, hidle]
  · intro hv hidle hreq
    simp [setKeepalive, hv, hidle, hreq]
  · intro hv hidle hreq
    simp [setKeepalive, hv, hidle, hreq]
  · intro q hq
    unfold setKeepalive at hq
    split at hq
    · exact Or.inl hq
    · split at hq
      · exact Or.inl hq
      · split at hq
        · exact Or.inl hq
        · simp only [List.mem_append, List.mem_singleton] at hq
          cases hq with
          | inl hmem => exact Or.inl hmem
          | inr heq => exact Or.inr (by rw [heq]; rfl)

/-! ## Upstream (src/upstream.rs) -/

/-- A connected upstream peer, tagged with the address of the pool that
produced it. -/
structure PeerU where
  addr : Nat
deriving DecidableEq, Repr

/-- `Upstream` state for `connect`: the two server maps
(`servers[0]` = primary, `servers[1]` = backup), each mapping an address to
what `ConnectionPool::connect` returns there (`none` = the pool fails,
`some peer` = it yields a peer), plus the `active`/`max_active` gate. -/
structure UpstreamM where
  primary : List (Nat × Option PeerU)
  backup : List (Nat × Option PeerU)
  maxActive : Nat
  active : Nat

/-- `servers[i].get(&addr)` (plus the pool's connect outcome). -/
def lookupPool (servers : List (Nat × Option PeerU)) (addr : Nat) :
    Option (Option PeerU) :=
  (servers.find? (fun p => p.1 == addr)).map (·.2)

/-- The inner `for _ in 0..servers[i].len()` loop of `Upstream::connect`:
each attempt asks the balancer (`balance att`, the attempt index models the
balancer's mutable round-robin state) for an address, breaks when the
balancer or the map lookup yields nothing, returns the peer on a successful
pool connect, and otherwise moves to the next attempt. -/
def tryServers (servers : List (Nat × Option PeerU)) (balance : Nat → Option Nat) :
    Nat → Nat → Option PeerU
  | 0, _ => none
  | n + 1, att =>
    match balance att with
    | none => none
    | some addr =>
      match lookupPool servers addr with
      | none => none
      | some none => tryServers servers balance n (att + 1)
      | some (some peer) => some peer

/-- `Upstream::connect(timeout)`: rejects at the `active == max_active`
gate, then runs `for i in 0..1` — the Rust range `0..1` yields only
`i = 0`, rendered here as `List.range 1` — over the server maps, and
returns `"Bad gateway"` when no attempt produced a peer. -/
def UpstreamM.connect (u : UpstreamM) (balance : Nat → Nat → Option Nat) :
    Except String PeerU :=
  if u.active = u.maxActive then .error "Bad gateway"
  else
    let servers := fun i => if i = 0 then u.primary else u.backup
    match (List.range 1).foldl
      (fun acc i =>
        match acc with
        | some peer => some peer
        | none => tryServers (servers i) (balance i) (servers i).length 0) none with
    | some peer => .ok peer
    | none => .error "Bad gateway"

/-- **C1.**  `Upstream::connect` never consults the backup map: the loop
`for i in 0..1` runs for `i = 0` only, so the result is identical for any
upstream with the backup map emptied.  Concretely, with one failing
primary pool at address 1 and one healthy backup pool at address 2 (which
`tryServers` would turn into a peer), `connect` returns `"Bad gateway"`
instead of the backup peer the specification promises. -/
theorem upstream_connect_never_uses_backup :
    (∀ (u : UpstreamM) (balance : Nat → Nat → Option Nat),
      UpstreamM.connect u balance
        = UpstreamM.connect ⟨u.primary, [], u.maxActive, u.active⟩ balance)
    ∧ UpstreamM.connect ⟨[(1, none)], [(2, some ⟨2⟩)], 8, 0⟩
        (fun i _ => if i = 0 then some 1 else some 2) = .error "Bad gateway"
    ∧ tryServers [(2, some ⟨2⟩)] (fun _ => some 2) 1 0 = some ⟨2⟩ :=
  ⟨fun _ _ => rfl, rfl, rfl⟩

/-! ## I/O reactor (src/core/io.rs) -/

/-- The per-client phase of the reactor's `clients` table
(`Item<T>` without the payloads). -/
inductive ItemState where
  | idle
  | request
  | response
deriving DecidableEq, Repr

/-- The reactor state touched by the listener-accept branch of `IO::new`:
the `clients` map, the `keepalive` ordered set of `(deadline, token)`
pairs, and the `unique_token` counter (`CLIENT` starts at 100000). -/
structure ReactorM where
  clients : List (Nat × ItemState)
  keepalive : List (Nat × Nat)
  uniqueToken : Nat
deriving DecidableEq, Repr

/-- The successful-accept branch of `IO::new` (src/core/io.rs:179-189):
`client_token = next(&mut unique_token)`; when `set_timeout` yields an
expiry the code inserts `(exp, token)` into `keepalive`, where `token` is
the *listener event token* of the surrounding match arm — not
`client_token` — and the client is stored under `client_token` as
`Item::Idle`. -/
def acceptClient (st : ReactorM) (serverToken : Nat)
    (requestTimeout : Option Nat) (now : Nat) : ReactorM :=
  let clientToken := st.uniqueToken
  match requestTimeout with
  | some d =>
    { clients := (clientToken, ItemState.idle) :: st.clients
      keepalive := (now + d, serverToken) :: st.keepalive
      uniqueToken := st.uniqueToken + 1 }
  | none =>
    { clients := (clientToken, ItemState.idle) :: st.clients
      keepalive := st.keepalive
      uniqueToken := st.uniqueToken + 1 }

/-- Number of keepalive entries keyed by token `t`. -/
def keepaliveCount (ks : List (Nat × Nat)) (t : Nat) : Nat :=
  (ks.filter (fun p => p.2 == t)).length

/-- **C2.**  Accepting a client on listener token 2 with a request timeout
in an empty reactor issues client token 100000 and stores the client as
`Idle`, but the keepalive entry is `(deadline, 2)` — keyed by the server's
event token: the fresh client token has zero entries (the invariant
demands exactly one) and the listener token, which is no client at all,
has one. -/
theorem reactor_accept_keys_by_server_token :
    acceptClient ⟨[], [], 100000⟩ 2 (some 5) 0
      = ⟨[(100000, .idle)], [(5, 2)], 100001⟩
    ∧ keepaliveCount [(5, 2)] 100000 = 0
    ∧ keepaliveCount [(5, 2)] 2 = 1 :=
  ⟨rfl, rfl, rfl⟩

theorem pool_set_keepalive_spec_witness :
    setKeepalive ⟨4, 100, 60, []⟩ ⟨true, 2, none, 9⟩ none 50
      = (⟨4, 100, 60, [⟨true, 3, some 110, 9⟩]⟩, .inserted, [9]) := by
  have h := pool_set_keepalive_spec ⟨4, 100, 60, []⟩ ⟨true, 2, none, 9⟩ none 50
  have := h.2.2.2.1 rfl (by decide) (by decide)
  simpa using this

/-! ## HTTP request-line target parser (src/http/internal/request.rs) -/

/-- One hexadecimal digit, as the `percent_encoding` crate accepts it. -/
def hexDigit? (c : Char) : Option Nat :=
  if 48 ≤ c.toNat ∧ c.toNat ≤ 57 then some (c.toNat - 48)
  else if 97 ≤ c.toNat ∧ c.toNat ≤ 102 then some (c.toNat - 87)
  else if 65 ≤ c.toNat ∧ c.toNat ≤ 70 then some (c.toNat - 55)
  else none

/-- `HttpRequest::url_decode` (`percent_decode` + lossy UTF-8, the latter
an identity on the ASCII inputs considered here): `%hh` becomes the byte
`hh`; a `%` not followed by two hex digits stays literal. -/
def urlDecode : List Char → List Char
  | [] => []
  | '%' :: h1 :: h2 :: rest =>
    match hexDigit? h1, hexDigit? h2 with
    | some a, some b => Char.ofNat (16 * a + b) :: urlDecode rest
    | _, _ => '%' :: urlDecode (h1 :: h2 :: rest)
  | c :: rest => c :: urlDecode rest

/-- The output of parsing the request target: the `uri`, `query_string`,
`request_uri` fields and the `args` multimap (`KeyVal`, key ↦ pushed-back
values) of `HttpRequest`. -/
structure ParsedTarget where
  uri : List Char
  queryString : List Char
  requestUri : List Char
  args : List (List Char × List (List Char))
deriving DecidableEq, Repr

/-- `self.args.entry(Key::from(k)).or_default().push_back(v)`. -/
def argsInsert : List (List Char × List (List Char)) → List Char → List Char →
    List (List Char × List (List Char))
  | [], k, v => [(k, [v])]
  | (k', vs) :: rest, k, v =>
    if k' = k then (k', vs ++ [v]) :: rest
    else (k', vs) :: argsInsert rest k v

/-- `HttpRequest::parse_uri` on the request-target segment: accumulates
bytes into `context.uri` until `?` (query follows) or ` ` (no query);
the accumulated bytes are stored *verbatim* (`String::from_utf8_lossy`),
with no percent-decoding.  `none` models an incomplete request line. -/
def parseUriPhase (acc : List Char) : List Char → Option ((List Char × Bool) × List Char)
  | [] => none
  | c :: rest =>
    if c = '?' then some ((acc, true), rest)
    else if c = ' ' then some ((acc, false), rest)
    else parseUriPhase (acc ++ [c]) rest

/-- `HttpRequest::parse_args`: `=` resets `args` to an empty map and opens
the value accumulator (pushing nothing to `query_string`); `&` URL-decodes
and inserts the pending pair (or fails on a dangling `&`); ` ` closes the
query — inserting the pending pair and publishing `query_string` when a
value is open, publishing nothing otherwise; every other byte goes to the
open value (or else the key) *and* to `query_string`.  The result carries
the final `args`, and `some qs` exactly when the value branch of ` `
published the accumulated `query_string`. -/
def parseArgsPhase (key : List Char) (val : Option (List Char))
    (args : List (List Char × List (List Char))) (qs : List Char) :
    List Char →
      Option ((List (List Char × List (List Char)) × Option (List Char)) × List Char)
  | [] => none
  | c :: rest =>
    if c = '=' then parseArgsPhase key (some []) [] qs rest
    else if c = ' ' then
      match val with
      | some v => some ((argsInsert args (urlDecode key) (urlDecode v), some qs), rest)
      | none => some ((args, none), rest)
    else if c = '&' then
      match val with
      | some v => parseArgsPhase [] none (argsInsert args (urlDecode key) (urlDecode v)) qs rest
      | none => none
    else
      match val with
      | some v => parseArgsPhase key (some (v ++ [c])) args (qs ++ [c]) rest
      | none => parseArgsPhase (key ++ [c]) none args (qs ++ [c]) rest

/-- `parse_uri` followed by `parse_args`, assembling `uri`,
`query_string`, `request_uri` (uri alone, or `uri ++ "?" ++ query_string`
when the query published one) and `args`; returns the unconsumed rest of
the input. -/
def parseTarget (input : List Char) : Option (ParsedTarget × List Char) :=
  match parseUriPhase [] input with
  | none => none
  | some ((uri, hasQuery), rest) =>
    if hasQuery then
      match parseArgsPhase [] none [] [] rest with
      | none => none
      | some ((args, qsSet), rest2) =>
        match qsSet with
        | some qs => some (⟨uri, qs, uri ++ '?' :: qs, args⟩, rest2)
        | none => some (⟨uri, [], uri, args⟩, rest2)
    else
      some (⟨uri, [], uri, []⟩, rest)

/-- Characters the query parser treats as plain data (not `=`, `&`, ` `). -/
abbrev tokChar (c : Char) : Prop := ¬ c = '=' ∧ ¬ c = '&' ∧ ¬ c = ' '

/-- `k1=v1&...&kn=vn` — the wire form of a query with at least one pair. -/
def renderPairs : List (List Char × List Char) → List Char
  | [] => []
  | [(k, v)] => k ++ '=' :: v
  | (k, v) :: ps => k ++ '=' :: v ++ '&' :: renderPairs ps

/-- The query characters with the `=`/`&` separators stripped — what the
parser's `query_string` accumulator actually collects. -/
def pairsFlat (ps : List (List Char × List Char)) : List Char :=
  (ps.map (fun p => p.1 ++ p.2)).flatten

theorem parseUriPhase_consume (u : List Char)
    (hu : ∀ c ∈ u, ¬ c = '?' ∧ ¬ c = ' ') :
    ∀ acc rest, parseUriPhase acc (u ++ rest) = parseUriPhase (acc ++ u) rest := by
  induction u with
  | nil => intro acc rest; simp
  | cons c u ih =>
    intro acc rest
    have hc := hu c (List.mem_cons_self c u)
    have hu2 : ∀ c' ∈ u, ¬ c' = '?' ∧ ¬ c' = ' ' :=
      fun c' hmem => hu c' (List.mem_cons_of_mem c hmem)
    simp only [List.cons_append, parseUriPhase, if_neg hc.1, if_neg hc.2, List.append_eq]
    rw [ih hu2 (acc ++ [c]) rest]
    simp

theorem parseArgsPhase_consume_key (k : List Char) (hk : ∀ c ∈ k, tokChar c) :
    ∀ key0 args qs rest,
      parseArgsPhase key0 none args qs (k ++ rest)
        = parseArgsPhase (key0 ++ k) none args (qs ++ k) rest := by
  induction k with
  | nil => intro key0 args qs rest; simp
  | cons c k ih =>
    intro key0 args qs rest
    have hc := hk c (List.mem_cons_self c k)
    have hk2 : ∀ c' ∈ k, tokChar c' :=
      fun c' hmem => hk c' (List.mem_cons_of_mem c hmem)
    simp only [List.cons_append, parseArgsPhase, if_neg hc.1, if_neg hc.2.2, if_neg hc.2.1,
      List.append_eq]
    rw [ih hk2 (key0 ++ [c]) args (qs ++ [c]) rest]
    simp

theorem parseArgsPhase_consume_val (v : List Char) (hv : ∀ c ∈ v, tokChar c) :
    ∀ key v0 args qs rest,
      parseArgsPhase key (some v0) args qs (v ++ rest)
        = parseArgsPhase key (some (v0 ++ v)) args (qs ++ v) rest := by
  induction v with
  | nil => intro key v0 args qs rest; simp
  | cons c v ih =>
    intro key v0 args qs rest
    have hc := hv c (List.mem_cons_self c v)
    have hv2 : ∀ c' ∈ v, tokChar c' :=
      fun c' hmem => hv c' (List.mem_cons_of_mem c hmem)
    simp only [List.cons_append, parseArgsPhase, if_neg hc.1, if_neg hc.2.2, if_neg hc.2.1,
      List.append_eq]
    rw [ih hv2 key (v0 ++ [c]) args (qs ++ [c]) rest]
    simp

theorem parseArgsPhase_pairs :
    ∀ (ps : List (List Char × List Char)) (k v : List Char),
      (∀ p ∈ ps ++ [(k, v)], (∀ c ∈ p.1, tokChar c) ∧ (∀ c ∈ p.2, tokChar c)) →
      ∀ args qs extra,
        parseArgsPhase [] none args qs (renderPairs (ps ++ [(k, v)]) ++ ' ' :: extra)
          = some (([(urlDecode k, [urlDecode v])],
              some (qs ++ pairsFlat (ps ++ [(k, v)]))), extra) := by
  intro ps
  induction ps with
  | nil =>
    intro k v hps args qs extra
    obtain ⟨hk, hv⟩ := hps (k, v) (by simp)
    simp only [List.nil_append, renderPairs]
    rw [show (k ++ '=' :: v) ++ ' ' :: extra = k ++ ('=' :: (v ++ ' ' :: extra)) by simp]
    rw [parseArgsPhase_consume_key k hk [] args qs ('=' :: (v ++ ' ' :: extra))]
    simp only [List.nil_append]
    rw [show parseArgsPhase k none args (qs ++ k) ('=' :: (v ++ ' ' :: extra))
        = parseArgsPhase k (some []) [] (qs ++ k) (v ++ ' ' :: extra) by
      simp [parseArgsPhase]]
    rw [parseArgsPhase_consume_val v hv k [] [] (qs ++ k) (' ' :: extra)]
    simp only [List.nil_append]
    simp [parseArgsPhase, argsInsert, pairsFlat]
  | cons p ps ih =>
    intro k v hps args qs extra
    obtain ⟨kp, vp⟩ := p
    obtain ⟨hkp, hvp⟩ := hps (kp, vp) (by simp)
    have hps2 : ∀ p ∈ ps ++ [(k, v)], (∀ c ∈ p.1, tokChar c) ∧ (∀ c ∈ p.2, tokChar c) :=
      fun p hmem => hps p (List.mem_cons_of_mem (kp, vp) hmem)
    cases hcons : ps ++ [(k, v)] with
    | nil => simp at hcons
    | cons q tail =>
      simp only [List.cons_append]
      rw [hcons]
      simp only [renderPairs]
      rw [show (kp ++ '=' :: vp ++ '&' :: renderPairs (q :: tail)) ++ ' ' :: extra
          = kp ++ ('=' :: (vp ++ ('&' :: (renderPairs (q :: tail) ++ ' ' :: extra)))) by
        simp]
      rw [parseArgsPhase_consume_key kp hkp [] args qs _]
      simp only [List.nil_append]
      rw [show parseArgsPhase kp none args (qs ++ kp)
            ('=' :: (vp ++ ('&' :: (renderPairs (q :: tail) ++ ' ' :: extra))))
          = parseArgsPhase kp (some []) [] (qs ++ kp)
            (vp ++ ('&' :: (renderPairs (q :: tail) ++ ' ' :: extra))) by
        simp [parseArgsPhase]]
      rw [parseArgsPhase_consume_val vp hvp kp [] [] (qs ++ kp) _]
      simp only [List.nil_append]
      rw [show parseArgsPhase kp (some vp) [] (qs ++ kp ++ vp)
            ('&' :: (renderPairs (q :: tail) ++ ' ' :: extra))
          = parseArgsPhase [] none (argsInsert [] (urlDecode kp) (urlDecode vp))
            (qs ++ kp ++ vp) (renderPairs (q :: tail) ++ ' ' :: extra) by
        simp [parseArgsPhase]]
      rw [← hcons]
      rw [ih k v hps2 (argsInsert [] (urlDecode kp) (urlDecode vp)) (qs ++ kp ++ vp) extra]
      simp [pairsFlat]

/-- **C4, counterexample.**  On the request target `/a%20b?x=%31&y=2 ` the
parser stores the URI bytes verbatim (`/a%20b`, not the decoded `/a b`
route matching would need under the claim), sets
`query_string`/`request_uri` from an accumulator that dropped the `=` and
`&` separators (`x%31y2`, not the verbatim `x=%31&y=2`), and — because
every `=` resets the map — retains only the final decoded pair. -/
theorem request_target_counterexample :
    parseTarget "/a%20b?x=%31&y=2 ".toList
      = some (⟨"/a%20b".toList, "x%31y2".toList, "/a%20b?x%31y2".toList,
          [("y".toList, ["2".toList])]⟩, [])
    ∧ urlDecode "/a%20b".toList = "/a b".toList
    ∧ "/a%20b".toList ≠ "/a b".toList
    ∧ "x%31y2".toList ≠ "x=%31&y=2".toList := by
  exact ⟨by decide, by decide, by decide, by decide⟩

/-- **C4 (amended).**  For a URI free of `?`/` ` and a query of pairs whose
keys and values avoid `=`/`&`/` `: without a query the parser yields the
raw URI with `request_uri = uri`; with a query it yields the raw
(undecoded) URI, a `query_string` equal to the query bytes with the
`=`/`&` separators stripped, `request_uri = uri ++ "?" ++ query_string`,
and an `args` map holding exactly the last pair, its key and value
percent-decoded (each `=` resets the map, so earlier pairs are lost). -/
theorem request_target_amended
    (u : List Char) (hu : ∀ c ∈ u, ¬ c = '?' ∧ ¬ c = ' ')
    (ps : List (List Char × List Char)) (k v : List Char)
    (hps : ∀ p ∈ ps ++ [(k, v)], (∀ c ∈ p.1, tokChar c) ∧ (∀ c ∈ p.2, tokChar c))
    (extra : List Char) :
    parseTarget (u ++ ' ' :: extra) = some (⟨u, [], u, []⟩, extra)
    ∧ parseTarget (u ++ '?' :: (renderPairs (ps ++ [(k, v)]) ++ ' ' :: extra))
        = some (⟨u, pairsFlat (ps ++ [(k, v)]),
            u ++ '?' :: pairsFlat (ps ++ [(k, v)]),
            [(urlDecode k, [urlDecode v])]⟩, extra) := by
  constructor
  · unfold parseTarget
    rw [parseUriPhase_consume u hu [] (' ' :: extra)]
    simp [parseUriPhase]
  · unfold parseTarget
    rw [parseUriPhase_consume u hu [] ('?' :: (renderPairs (ps ++ [(k, v)]) ++ ' ' :: extra))]
    rw [show parseUriPhase ([] ++ u) ('?' :: (renderPairs (ps ++ [(k, v)]) ++ ' ' :: extra))
        = some ((([] ++ u), true), renderPairs (ps ++ [(k, v)]) ++ ' ' :: extra) by
      simp [parseUriPhase]]
    dsimp only
    rw [parseArgsPhase_pairs ps k v hps [] [] extra]
    simp

theorem request_target_amended_witness :
    parseTarget ("/a".toList ++ '?' :: (renderPairs [("x".toList, "%31".toList)] ++ ' ' :: "Z".toList))
      = some (⟨"/a".toList, pairsFlat [("x".toList, "%31".toList)],
          "/a".toList ++ '?' :: pairsFlat [("x".toList, "%31".toList)],
          [(urlDecode "x".toList, [urlDecode "%31".toList])]⟩, "Z".toList) :=
  (request_target_amended "/a".toList (by decide)
    [] "x".toList "%31".toList (by decide) "Z".toList).2

/-! ## Chunked transfer encoding (src/http/internal/response.rs,
src/http/plugins/proxy.rs) -/

/-- One lowercase hex digit byte, as `format!("{:x}")` emits. -/
def hexDigitByte (n : Nat) : Nat := if n < 10 then 48 + n else 87 + n

/-- The byte string `format!("{:x}", n)`: most-significant digit first,
`"0"` for zero. -/
def toHex (n : Nat) : List Nat :=
  if n < 16 then [hexDigitByte n]
  else toHex (n / 16) ++ [hexDigitByte (n % 16)]
decreasing_by
  exact Nat.div_lt_self (by omega) (by omega)

/-- `HttpResponse::send_body_chunk` with `Transfer-Encoding: chunked` and
an empty body-filter chain: `some data` writes
`format!("{:x}\r\n", len)`, the data, and CRLF; `none` (the final call)
writes the `0\r\n` frame followed by CRLF. -/
def sendBodyChunk : Option (List Nat) → List Nat
  | some data => toHex data.length ++ [13, 10] ++ data ++ [13, 10]
  | none => toHex 0 ++ [13, 10] ++ [13, 10]

/-- The response writer's chunked serialization of a chunk sequence:
`send_body_chunk` on each chunk in order, then `send_body_chunk(None)`. -/
def serializeChunked (xs : List (List Nat)) : List Nat :=
  (xs.map (fun x => sendBodyChunk (some x))).flatten ++ sendBodyChunk none

/-- The numeric value of a hex digit byte, as
`usize::from_str_radix(_, 16)` accepts (both cases). -/
def hexVal? (b : Nat) : Option Nat :=
  if 48 ≤ b ∧ b ≤ 57 then some (b - 48)
  else if 97 ≤ b ∧ b ≤ 102 then some (b - 87)
  else if 65 ≤ b ∧ b ≤ 70 then some (b - 55)
  else none

def parseHexAux (acc : Nat) : List Nat → Option Nat
  | [] => some acc
  | d :: ds =>
    match hexVal? d with
    | some v => parseHexAux (16 * acc + v) ds
    | none => none

/-- `usize::from_str_radix(s, 16)`: fails on the empty string or a
non-hex byte. -/
def parseHex (ds : List Nat) : Option Nat :=
  if ds = [] then none else parseHexAux 0 ds

/-- `HttpProxyContext::read_chunk_size` on a complete stream: skips CR,
accumulates size bytes until LF, then parses them as hex — `0` marks the
final chunk (`chunk.1 = None`).  `none` models the connection closing or a
parse failure. -/
def readChunkSize (acc : List Nat) : List Nat → Option (Option Nat × List Nat)
  | [] => none
  | b :: rest =>
    if b = 13 then readChunkSize acc rest
    else if b = 10 then
      match parseHex acc with
      | some 0 => some (none, rest)
      | some n => some (some n, rest)
      | none => none
    else readChunkSize (acc ++ [b]) rest

/-- `HttpProxyContext::read_chunk`: reads the size line, then accumulates
`chunk_size + 2` bytes (data plus its trailing CRLF) and exposes the first
`chunk_size` of them (`&self.chunk.0[..chunk_size]`, what `read_body`
appends). -/
def readChunk (input : List Nat) : Option ((Option Nat × List Nat) × List Nat) :=
  match readChunkSize [] input with
  | none => none
  | some (none, rest) => some ((none, []), rest)
  | some (some n, rest) =>
    if n + 2 ≤ rest.length then
      some ((some n, rest.take n), rest.drop (n + 2))
    else none

/-- The chunked branch of `HttpProxyContext::read_body`: read chunks and
append their data to the body until the zero-size chunk; `fuel` bounds the
loop (each iteration consumes at least one input byte). -/
def readBodyChunked (body : List Nat) : Nat → List Nat → Option (List Nat × List Nat)
  | 0, _ => none
  | fuel + 1, input =>
    match readChunk input with
    | none => none
    | some ((none, _), rest) => some (body, rest)
    | some ((some _, data), rest) => readBodyChunked (body ++ data) fuel rest

/-- Feed a complete byte stream to the proxy's chunked-body parser. -/
def parseChunkedBody (input : List Nat) : Option (List Nat × List Nat) :=
  readBodyChunked [] (input.length + 1) input

theorem hexVal_hexDigitByte {d : Nat} (h : d < 16) :
    hexVal? (hexDigitByte d) = some d := by
  unfold hexVal? hexDigitByte
  split_ifs <;> first
  | (congr 1; omega)
  | omega

theorem hexDigitByte_ne_crlf (d : Nat) :
    ¬ hexDigitByte d = 13 ∧ ¬ hexDigitByte d = 10 := by
  unfold hexDigitByte
  split <;> omega

theorem toHex_ne_nil (n : Nat) : ¬ toHex n = [] := by
  rw [toHex.eq_def]
  split <;> simp

theorem toHex_mem {n b : Nat} (h : b ∈ toHex n) : ¬ b = 13 ∧ ¬ b = 10 := by
  induction n using Nat.strong_induction_on with
  | _ n ih =>
    rw [toHex.eq_def] at h
    split at h
    · simp only [List.mem_singleton] at h
      subst h
      exact hexDigitByte_ne_crlf n
    · rw [List.mem_append] at h
      cases h with
      | inl h => exact ih (n / 16) (Nat.div_lt_self (by omega) (by omega)) h
      | inr h =>
        simp only [List.mem_singleton] at h
        subst h
        exact hexDigitByte_ne_crlf (n % 16)

theorem parseHexAux_append {ds1 : List Nat} {acc a : Nat}
    (h : parseHexAux acc ds1 = some a) (ds2 : List Nat) :
    parseHexAux acc (ds1 ++ ds2) = parseHexAux a ds2 := by
  induction ds1 generalizing acc with
  | nil =>
    simp only [parseHexAux, Option.some.injEq] at h
    subst h
    simp
  | cons d ds ih =>
    simp only [parseHexAux] at h ⊢
    cases hv : hexVal? d with
    | none => rw [hv] at h; cases h
    | some v =>
      rw [hv] at h
      simp only [List.cons_append, parseHexAux, hv]
      exact ih h

theorem parseHexAux_toHex (n : Nat) :
    ∀ acc, parseHexAux acc (toHex n) = some (acc * 16 ^ (toHex n).length + n) := by
  induction n using Nat.strong_induction_on with
  | _ n ih =>
    intro acc
    rw [toHex.eq_def]
    split
    · rename_i hlt
      simp only [parseHexAux, hexVal_hexDigitByte hlt, List.length_singleton]
      congr 1
      rw [pow_one]
      omega
    · rename_i hge
      have hdiv := ih (n / 16) (Nat.div_lt_self (by omega) (by omega)) acc
      rw [parseHexAux_append hdiv [hexDigitByte (n % 16)]]
      simp only [parseHexAux, hexVal_hexDigitByte (Nat.mod_lt n (by omega)),
        List.length_append, List.length_singleton]
      congr 1
      generalize (toHex (n / 16)).length = L
      have hpow : acc * 16 ^ (L + 1) = 16 * (acc * 16 ^ L) := by ring
      rw [hpow]
      omega

theorem parseHex_toHex (n : Nat) : parseHex (toHex n) = some n := by
  unfold parseHex
  rw [if_neg (toHex_ne_nil n), parseHexAux_toHex n 0]
  simp

theorem readChunkSize_consume (ds : List Nat)
    (hds : ∀ b ∈ ds, ¬ b = 13 ∧ ¬ b = 10) :
    ∀ acc rest, readChunkSize acc (ds ++ rest) = readChunkSize (acc ++ ds) rest := by
  induction ds with
  | nil => intro acc rest; simp
  | cons b ds ih =>
    intro acc rest
    have hb := hds b (List.mem_cons_self b ds)
    have hds2 : ∀ b' ∈ ds, ¬ b' = 13 ∧ ¬ b' = 10 :=
      fun b' hmem => hds b' (List.mem_cons_of_mem b hmem)
    simp only [List.cons_append, readChunkSize, if_neg hb.1, if_neg hb.2, List.append_eq]
    rw [ih hds2 (acc ++ [b]) rest]
    simp

theorem readChunkSize_hex (n : Nat) (rest : List Nat) :
    readChunkSize [] (toHex n ++ 13 :: 10 :: rest)
      = some (if n = 0 then none else some n, rest) := by
  rw [readChunkSize_consume (toHex n) (fun b hb => toHex_mem hb) [] (13 :: 10 :: rest)]
  simp only [List.nil_append]
  by_cases hn : n = 0 <;>
    simp [readChunkSize, parseHex_toHex, hn]

theorem readChunk_data (x rest : List Nat) (hx : ¬ x = []) :
    readChunk (sendBodyChunk (some x) ++ rest)
      = some ((some x.length, x), rest) := by
  unfold sendBodyChunk readChunk
  rw [show (toHex x.length ++ [13, 10] ++ x ++ [13, 10]) ++ rest
      = toHex x.length ++ 13 :: 10 :: (x ++ 13 :: 10 :: rest) by simp]
  rw [readChunkSize_hex x.length (x ++ 13 :: 10 :: rest)]
  have hxlen : ¬ x.length = 0 := by simpa using hx
  rw [if_neg hxlen]
  dsimp only
  rw [if_pos (by simp only [List.length_append, List.length_cons]; omega)]
  have h1 : x ++ 13 :: 10 :: rest = (x ++ [13, 10]) ++ rest := by simp
  have htake : List.take x.length (x ++ 13 :: 10 :: rest) = x := by
    simp
  have hdrop : List.drop (x.length + 2) (x ++ 13 :: 10 :: rest) = rest := by
    rw [h1, show x.length + 2 = (x ++ [13, 10]).length by simp, List.drop_left]
  rw [htake, hdrop]

theorem readChunk_last (rest : List Nat) :
    readChunk (sendBodyChunk none ++ rest) = some ((none, []), 13 :: 10 :: rest) := by
  unfold sendBodyChunk readChunk
  rw [show (toHex 0 ++ [13, 10] ++ [13, 10]) ++ rest
      = toHex 0 ++ 13 :: 10 :: (13 :: 10 :: rest) by simp]
  rw [readChunkSize_hex 0 (13 :: 10 :: rest)]
  simp

theorem readBodyChunked_serialize (xs : List (List Nat))
    (hxs : ∀ x ∈ xs, ¬ x = []) :
    ∀ body fuel, xs.length < fuel →
      readBodyChunked body fuel
          ((xs.map (fun x => sendBodyChunk (some x))).flatten ++ sendBodyChunk none)
        = some (body ++ xs.flatten, [13, 10]) := by
  induction xs with
  | nil =>
    intro body fuel hfuel
    match fuel, hfuel with
    | f + 1, _ =>
      simp only [List.map_nil, List.flatten_nil, List.nil_append, readBodyChunked]
      rw [show sendBodyChunk none = sendBodyChunk none ++ [] by simp,
        readChunk_last []]
      simp
  | cons x xs ih =>
    intro body fuel hfuel
    have hx := hxs x (List.mem_cons_self x xs)
    have hxs2 : ∀ x' ∈ xs, ¬ x' = [] :=
      fun x' hmem => hxs x' (List.mem_cons_of_mem x hmem)
    match fuel, hfuel with
    | f + 1, hfuel =>
      simp only [List.map_cons, List.flatten_cons, List.append_assoc, readBodyChunked]
      rw [readChunk_data x _ hx]
      dsimp only
      rw [ih hxs2 (body ++ x) f (by simp at hfuel; omega)]
      simp

theorem toHex_zero : toHex 0 = [48] := by
  rw [toHex.eq_def]
  norm_num [hexDigitByte]

theorem toHex_one : toHex 1 = [49] := by
  rw [toHex.eq_def]
  norm_num [hexDigitByte]

theorem sendBodyChunk_ne_nil (x : Option (List Nat)) : ¬ sendBodyChunk x = [] := by
  cases x <;> simp [sendBodyChunk, toHex_ne_nil]

theorem length_le_serializeChunked (xs : List (List Nat)) :
    xs.length ≤ (serializeChunked xs).length := by
  induction xs with
  | nil => simp
  | cons x xs ih =>
    unfold serializeChunked at ih ⊢
    simp only [List.map_cons, List.flatten_cons, List.append_assoc, List.length_append,
      List.length_cons] at ih ⊢
    have := List.length_pos.mpr (sendBodyChunk_ne_nil (some x))
    omega

/-- **C6, counterexample.**  An empty chunk serializes as `0\r\n\r\n`,
which is precisely the terminating frame, so the parser stops there: for
`xs = [[], [65]]` the parsed body is `[]`, not the concatenation `[65]`. -/
theorem chunked_roundtrip_counterexample :
    serializeChunked [[], [65]]
      = [48, 13, 10, 13, 10, 49, 13, 10, 65, 13, 10, 48, 13, 10, 13, 10]
    ∧ parseChunkedBody (serializeChunked [[], [65]])
      = some ([], [13, 10, 49, 13, 10, 65, 13, 10, 48, 13, 10, 13, 10])
    ∧ ([] : List Nat) ≠ ([[], [65]] : List (List Nat)).flatten := by
  have hser : serializeChunked [[], [65]]
      = [48, 13, 10, 13, 10, 49, 13, 10, 65, 13, 10, 48, 13, 10, 13, 10] := by
    simp [serializeChunked, sendBodyChunk, toHex_zero, toHex_one]
  refine ⟨hser, ?_, by decide⟩
  rw [hser]
  decide

/-- **C6 (amended).**  For every finite sequence of *non-empty* byte
chunks, feeding the response writer's chunked serialization
(`send_body_chunk` per chunk, then `send_body_chunk(None)`) to the
proxy's chunked-body parser yields exactly the concatenation of the
chunks (with the serializer's final CRLF left unconsumed); an empty
chunk would serialize as the terminator itself and cut the body short. -/
theorem chunked_roundtrip (xs : List (List Nat)) (hxs : ∀ x ∈ xs, ¬ x = []) :
    parseChunkedBody (serializeChunked xs) = some (xs.flatten, [13, 10]) := by
  unfold parseChunkedBody
  have hlen := length_le_serializeChunked xs
  unfold serializeChunked at hlen ⊢
  rw [readBodyChunked_serialize xs hxs [] _ (by omega)]
  simp

theorem chunked_roundtrip_witness :
    parseChunkedBody (serializeChunked [[65, 66], [67]])
      = some (([[65, 66], [67]] : List (List Nat)).flatten, [13, 10]) :=
  chunked_roundtrip [[65, 66], [67]] (by decide)

/-! ## HttpResponse::flush_headers (src/http/internal/response.rs) -/

/-- HTTP protocol version (`HttpProtocol`). -/
inductive HttpProt where
  | http10
  | http11
deriving DecidableEq, Repr

/-- `TransferEncoding`, a `u16` bitmask with one independent bit per
coding; modelled as one Bool per flag (`CHUNKED` = bit 0 etc.; `|=` sets a
field, `&= !FLAG` clears it). -/
structure TE where
  chunked : Bool
  compress : Bool
  deflate : Bool
  gzip : Bool
  identity : Bool
deriving DecidableEq, Repr

/-- `TransferEncoding(0)`. -/
def TE.zero : TE := ⟨false, false, false, false, false⟩

/-- `self.0 == 0` (used by `format`). -/
def TE.isZero (t : TE) : Bool :=
  !t.chunked && !t.compress && !t.deflate && !t.gzip && !t.identity

/-- `TransferEncoding::parse` on one trimmed token. -/
def TE.parse1 (te : TE) (v : List Char) : TE :=
  if v = "chunked".toList then { te with chunked := true }
  else if v = "compress".toList then { te with compress := true }
  else if v = "deflate".toList then { te with deflate := true }
  else if v = "gzip".toList then { te with gzip := true }
  else if v = "identity".toList then { te with identity := true }
  else te

/-- `str::split(",")` (segments between commas, empties included). -/
def splitAux (cur : List Char) : List Char → List (List Char)
  | [] => [cur]
  | c :: rest =>
    if c = ',' then cur :: splitAux [] rest
    else splitAux (cur ++ [c]) rest

def splitOnComma (s : List Char) : List (List Char) := splitAux [] s

/-- ASCII whitespace, for `str::trim`. -/
def isWsp (c : Char) : Bool :=
  c.toNat = 32 || c.toNat = 9 || c.toNat = 13 || c.toNat = 10

def trimSpaces (s : List Char) : List Char :=
  ((s.dropWhile isWsp).reverse.dropWhile isWsp).reverse

/-- `TransferEncoding::new`: parse a comma-separated header value (or
nothing at all) into the flag set. -/
def TE.new (h : Option (List Char)) : TE :=
  match h with
  | none => TE.zero
  | some a => (splitOnComma a).foldl (fun te v => TE.parse1 te (trimSpaces v)) TE.zero

/-- `Vec::join(", ")`. -/
def joinSep (sep : List Char) : List (List Char) → List Char
  | [] => []
  | [x] => x
  | x :: xs => x ++ sep ++ joinSep sep xs

/-- `TransferEncoding::format` / `Display`: `None` when no flag is set,
otherwise the flag names joined with `", "`. -/
def TE.format (t : TE) : Option (List Char) :=
  if TE.isZero t then none
  else some (joinSep (", ".toList)
    ((if t.chunked then ["chunked".toList] else [])
     ++ (if t.compress then ["compress".toList] else [])
     ++ (if t.deflate then ["deflate".toList] else [])
     ++ (if t.gzip then ["gzip".toList] else [])
     ++ (if t.identity then ["identity".toList] else [])))

/-- `KeyVal<String>` (headers): insertion-ordered association list from a
case-insensitive key to the pushed-back values. -/
abbrev HeadersM := List (List Char × List (List Char))

def lowerStr (s : List Char) : List Char := s.map Char.toLower

/-- `unicase::Ascii` key equality. -/
def keyEq (a b : List Char) : Bool := lowerStr a == lowerStr b

/-- `KeyVal::exact`: the front value stored under the key. -/
def hdrExact (hs : HeadersM) (name : List Char) : Option (List Char) :=
  match hs.find? (fun p => keyEq p.1 name) with
  | some (_, v :: _) => some v
  | _ => none

/-- All values stored under the key. -/
def hdrValues (hs : HeadersM) (name : List Char) : List (List Char) :=
  match hs.find? (fun p => keyEq p.1 name) with
  | some (_, vs) => vs
  | none => []

/-- `KeyVal::set` (= `replace(name, Some v)`): clear the key's list and
push the single value, creating the entry at the back when absent. -/
def hdrSet (hs : HeadersM) (name : List Char) (v : List Char) : HeadersM :=
  if hs.any (fun p => keyEq p.1 name) then
    hs.map (fun p => if keyEq p.1 name then (p.1, [v]) else p)
  else hs ++ [(name, [v])]

/-- `KeyVal::remove`. -/
def hdrRemove (hs : HeadersM) (name : List Char) : HeadersM :=
  hs.filter (fun p => !(keyEq p.1 name))

/-- `KeyVal::replace`. -/
def hdrReplace (hs : HeadersM) (name : List Char) (v : Option (List Char)) : HeadersM :=
  match v with
  | some v => hdrSet hs name v
  | none => hdrRemove hs name

/-- `KeyVal::add`: push a value at the back of the key's list. -/
def hdrAdd (hs : HeadersM) (name : List Char) (v : List Char) : HeadersM :=
  if hs.any (fun p => keyEq p.1 name) then
    hs.map (fun p => if keyEq p.1 name then (p.1, p.2 ++ [v]) else p)
  else hs ++ [(name, [v])]

/-- `value.parse::<usize>()`. -/
def parseNat? (s : List Char) : Option Nat :=
  if s.isEmpty then none
  else if s.all (fun c => 48 ≤ c.toNat && c.toNat ≤ 57) then
    some (s.foldl (fun a c => a * 10 + (c.toNat - 48)) 0)
  else none

/-- `format!("{}", n)` for the Content-Length value. -/
def natToStr (n : Nat) : List Char := Nat.toDigits 10 n

/-- The `HttpResponse` state `flush_headers` manipulates. -/
structure RespM where
  protocol : HttpProt
  status : Nat
  headers : HeadersM
  contentLength : Option Nat
  te : TE
  body : Option (List Nat)
  closed : Bool
  headersSent : Bool

/-- The prologue of `flush_headers`: the `Server` header, then the
`Connection` header / `closed` flag from the *response* protocol and the
request's `connection` header. -/
def connectionSetup (reqConn : Option (List Char)) (r : RespM) : RespM :=
  let r := { r with headers := hdrSet r.headers ("Server".toList) ("WS-Platform/0.0.1".toList) }
  match r.protocol with
  | .http11 =>
    match reqConn with
    | some v =>
      if lowerStr v = "close".toList then
        { r with
            closed := true
            headers := hdrSet r.headers ("Connection".toList) ("close".toList) }
      else { r with headers := hdrSet r.headers ("Connection".toList) ("keep-alive".toList) }
    | none => { r with headers := hdrSet r.headers ("Connection".toList) ("keep-alive".toList) }
  | .http10 =>
    { r with
        closed := true
        headers := hdrSet r.headers ("Connection".toList) ("close".toList) }

/-- The `j == 0` epilogue: adopt an explicit `Content-Length` header into
`content_length`, or forget it when the headers announce chunked. -/
def syncContentLength (r : RespM) : RespM :=
  match hdrExact r.headers ("Content-Length".toList) with
  | some v =>
    match parseNat? v with
    | some n => { r with contentLength := some n }
    | none => r
  | none =>
    if (TE.new (hdrExact r.headers ("Transfer-Encoding".toList))).chunked then
      { r with contentLength := none }
    else r

/-- The `j == 1` prologue: re-read the `Transfer-Encoding` header, settle
the framing — 204/304 drop `Content-Length` and chunked and the body; a
known length emits `Content-Length` and clears chunked; no length makes an
HTTP/1.1 *request* chunked and an HTTP/1.0 request non-chunked, dropping
`Content-Length` — then write back the `Transfer-Encoding` header from the
final flags. -/
def finalizeFraming (reqProt : HttpProt) (r : RespM) : RespM :=
  let r := { r with te := TE.new (hdrExact r.headers ("Transfer-Encoding".toList)) }
  let r :=
    if r.status = 304 ∨ r.status = 204 then
      { r with
          te := { r.te with chunked := false }
          headers := hdrRemove r.headers ("Content-Length".toList)
          contentLength := none
          body := none }
    else
      match r.contentLength with
      | some len =>
        { r with
            te := { r.te with chunked := false }
            headers := hdrSet r.headers ("Content-Length".toList) (natToStr len) }
      | none =>
        let r :=
          match reqProt with
          | .http11 => { r with te := { r.te with chunked := true } }
          | .http10 => { r with te := { r.te with chunked := false } }
        { r with headers := hdrRemove r.headers ("Content-Length".toList) }
  { r with headers := hdrReplace r.headers ("Transfer-Encoding".toList) (TE.format r.te) }

/-- `flush_headers`' working state: the response plus the request's
header-filter chain. -/
structure FlushState where
  resp : RespM
  chain : List (RespM → RespM)

def runFilters (fs : List (RespM → RespM)) (r : RespM) : RespM :=
  fs.foldl (fun r h => h r) r

/-- One iteration of `for j in 0..2`.  `take(&mut header_filter)` swaps
the chain for an empty list before running it, so whatever pass drains it
first leaves nothing for the other. -/
def flushPass (reqProt : HttpProt) (st : FlushState) (j : Nat) : FlushState :=
  let st := if j = 1 then { st with resp := finalizeFraming reqProt st.resp } else st
  let fs := st.chain
  let st : FlushState := ⟨runFilters fs st.resp, []⟩
  if j = 0 then { st with resp := syncContentLength st.resp } else st

/-- `HttpResponse::flush_headers` up to the point where the status line
and headers are serialized onto the wire (header iteration order is a
`HashMap` artifact and not modelled). -/
def flushHeaders (reqProt : HttpProt) (reqConn : Option (List Char))
    (st : FlushState) : FlushState :=
  if st.resp.headersSent then st
  else
    let st := { st with resp := connectionSetup reqConn st.resp }
    let st := (List.range 2).foldl (flushPass reqProt) st
    { st with resp := { st.resp with headersSent := true } }

theorem keyEq_symm (a b : List Char) : keyEq a b = keyEq b a := by
  simp [keyEq, BEq.comm]

theorem keyEq_trans {a b c : List Char} (h1 : keyEq a b = true)
    (h2 : keyEq b c = true) : keyEq a c = true := by
  simp [keyEq] at h1 h2 ⊢
  exact h1.trans h2

theorem map_set_id (hs : HeadersM) (n1 v : List Char)
    (h : hs.any (fun q => keyEq q.1 n1) = false) :
    hs.map (fun q => if keyEq q.1 n1 then (q.1, [v]) else q) = hs := by
  induction hs with
  | nil => rfl
  | cons p hs ih =>
    simp only [List.any_cons, Bool.or_eq_false_iff] at h
    have hhead : (if keyEq p.1 n1 = true then (p.1, [v]) else p) = p := by
      rw [h.1]
      simp
    rw [List.map_cons, hhead, ih h.2]

theorem hdrExact_cons_ne {p : List Char × List (List Char)} {hs : HeadersM}
    {name : List Char} (h : keyEq p.1 name = false) :
    hdrExact (p :: hs) name = hdrExact hs name := by
  simp [hdrExact, List.find?_cons, h]

theorem hdrExact_set_self (hs : HeadersM) (name v : List Char) :
    hdrExact (hdrSet hs name v) name = some v := by
  induction hs with
  | nil =>
    simp [hdrSet, hdrExact, keyEq]
  | cons p hs ih =>
    unfold hdrSet at ih ⊢
    by_cases hp : keyEq p.1 name
    · rw [if_pos (by simp [List.any_cons, hp])]
      simp only [List.map_cons, if_pos hp]
      simp [hdrExact, List.find?_cons, hp]
    · by_cases hany : hs.any (fun q => keyEq q.1 name)
      · rw [if_pos (by simp [List.any_cons, hp, hany])]
        rw [if_pos hany] at ih
        simp only [List.map_cons, hp]
        rw [if_neg (by simp [hp])]
        rw [hdrExact_cons_ne (by simp [hp])]
        exact ih
      · rw [if_neg (by simp [List.any_cons, hp, hany])]
        rw [if_neg hany] at ih
        rw [List.cons_append, hdrExact_cons_ne (by simp [hp])]
        exact ih

theorem hdrExact_set_ne (hs : HeadersM) {n1 n2 : List Char} (v : List Char)
    (hne : keyEq n1 n2 = false) :
    hdrExact (hdrSet hs n1 v) n2 = hdrExact hs n2 := by
  induction hs with
  | nil =>
    simp only [hdrSet, List.any_nil]
    rw [if_neg (by simp)]
    simp [hdrExact, List.find?_cons, hne]
  | cons p hs ih =>
    unfold hdrSet at ih ⊢
    by_cases hp1 : keyEq p.1 n1
    · have hp2 : keyEq p.1 n2 = false := by
        by_cases h : keyEq p.1 n2
        · have := keyEq_trans (by rw [keyEq_symm]; exact hp1) h
          rw [this] at hne
          cases hne
        · simpa using h
      rw [if_pos (by simp [List.any_cons, hp1])]
      simp only [List.map_cons, if_pos hp1]
      rw [hdrExact_cons_ne (p := (p.1, [v])) hp2, hdrExact_cons_ne hp2]
      by_cases hany : hs.any (fun q => keyEq q.1 n1)
      · rw [if_pos hany] at ih
        exact ih
      · rw [map_set_id hs n1 v (by simpa using hany)]
    · by_cases hany : hs.any (fun q => keyEq q.1 n1)
      · rw [if_pos (by simp [List.any_cons, hp1, hany])]
        rw [if_pos hany] at ih
        simp only [List.map_cons]
        rw [if_neg (by simp [hp1])]
        by_cases hp2 : keyEq p.1 n2
        · simp [hdrExact, List.find?_cons, hp2]
        · rw [hdrExact_cons_ne (by simpa using hp2), hdrExact_cons_ne (by simpa using hp2)]
          exact ih
      · rw [if_neg (by simp [List.any_cons, hp1, hany])]
        rw [if_neg hany] at ih
        rw [List.cons_append]
        by_cases hp2 : keyEq p.1 n2
        · simp [hdrExact, List.find?_cons, hp2]
        · rw [hdrExact_cons_ne (by simpa using hp2), hdrExact_cons_ne (by simpa using hp2)]
          exact ih

theorem hdrExact_remove_self (hs : HeadersM) (name : List Char) :
    hdrExact (hdrRemove hs name) name = none := by
  induction hs with
  | nil => rfl
  | cons p hs ih =>
    unfold hdrRemove at ih ⊢
    by_cases hp : keyEq p.1 name
    · simp only [List.filter_cons, hp, Bool.not_true, Bool.false_eq_true, if_false]
      exact ih
    · have hp' : keyEq p.1 name = false := by simpa using hp
      simp only [List.filter_cons, hp', Bool.not_false, if_true]
      rw [hdrExact_cons_ne hp']
      exact ih

theorem hdrExact_remove_ne (hs : HeadersM) {n1 n2 : List Char}
    (hne : keyEq n1 n2 = false) :
    hdrExact (hdrRemove hs n1) n2 = hdrExact hs n2 := by
  induction hs with
  | nil => rfl
  | cons p hs ih =>
    unfold hdrRemove at ih ⊢
    by_cases hp1 : keyEq p.1 n1
    · have hp2 : keyEq p.1 n2 = false := by
        by_cases h : keyEq p.1 n2
        · have := keyEq_trans (by rw [keyEq_symm]; exact hp1) h
          rw [this] at hne
          cases hne
        · simpa using h
      simp only [List.filter_cons, hp1, Bool.not_true, Bool.false_eq_true, if_false]
      rw [hdrExact_cons_ne hp2]
      exact ih
    · have hp1' : keyEq p.1 n1 = false := by simpa using hp1
      simp only [List.filter_cons, hp1', Bool.not_false, if_true]
      by_cases hp2 : keyEq p.1 n2
      · simp [hdrExact, List.find?_cons, hp2]
      · rw [hdrExact_cons_ne (by simpa using hp2), hdrExact_cons_ne (by simpa using hp2)]
        exact ih

theorem hdrExact_replace_ne (hs : HeadersM) {n1 n2 : List Char}
    (v : Option (List Char)) (hne : keyEq n1 n2 = false) :
    hdrExact (hdrReplace hs n1 v) n2 = hdrExact hs n2 := by
  cases v with
  | some v => exact hdrExact_set_ne hs v hne
  | none => exact hdrExact_remove_ne hs hne

/-- **C5, counterexample.**  One observer filter that records the
`Transfer-Encoding` header it sees into `X-Seen`: after `flush_headers` on
a fresh HTTP/1.1 response with no length, the final framing is
`Transfer-Encoding: chunked`, yet `X-Seen` holds the single entry
`absent` — the filter ran exactly once, before finalization, because
`take(&mut header_filter)` emptied the chain; a second pass over "the
same chain" (which would have appended `chunked`) never runs it. -/
theorem flush_headers_counterexample :
    (let obsF : RespM → RespM := fun r =>
       let seen := (hdrExact r.headers ("Transfer-Encoding".toList)).getD ("absent".toList)
       { r with headers := hdrAdd r.headers ("X-Seen".toList) seen }
     let st := flushHeaders HttpProt.http11 none
       ⟨⟨.http11, 200, [], none, TE.zero, none, false, false⟩, [obsF]⟩
     hdrValues st.resp.headers ("X-Seen".toList) = ["absent".toList]
     ∧ hdrExact st.resp.headers ("Transfer-Encoding".toList) = some ("chunked".toList)
     ∧ ¬ hdrValues st.resp.headers ("X-Seen".toList)
         = ["absent".toList, "chunked".toList]) := by
  refine ⟨by decide, by decide, by decide⟩

/-- **C5 (amended).**  On its first effective call `flush_headers` runs
the header-filter chain once (draining it via `take`), then reconciles the
framing, and the second pass of the `for j in 0..2` loop finds the chain
empty, so the original filters never observe the final framing.  The
reconciliation itself is as claimed: 204/304 drop `Content-Length`,
chunked and the body; a known length emits `Content-Length` and clears
chunked; no known length makes an HTTP/1.1 exchange chunked and an
HTTP/1.0 one non-chunked, while an HTTP/1.0 response is close-delimited
(`closed = true`, set with the `Connection: close` header). -/
theorem flush_headers_spec (reqProt : HttpProt) (reqConn : Option (List Char))
    (r0 : RespM) (fs : List (RespM → RespM)) (h : r0.headersSent = false) :
    flushHeaders reqProt reqConn ⟨r0, fs⟩
      = ⟨{ finalizeFraming reqProt
            (syncContentLength (runFilters fs (connectionSetup reqConn r0))) with
          headersSent := true }, []⟩
    ∧ (∀ r : RespM, (r.status = 304 ∨ r.status = 204) →
        hdrExact (finalizeFraming reqProt r).headers ("Content-Length".toList) = none
        ∧ (finalizeFraming reqProt r).contentLength = none
        ∧ (finalizeFraming reqProt r).body = none
        ∧ (finalizeFraming reqProt r).te.chunked = false)
    ∧ (∀ (r : RespM) (n : Nat), ¬ (r.status = 304 ∨ r.status = 204) →
        r.contentLength = some n →
        hdrExact (finalizeFraming reqProt r).headers ("Content-Length".toList)
          = some (natToStr n)
        ∧ (finalizeFraming reqProt r).te.chunked = false)
    ∧ (∀ r : RespM, ¬ (r.status = 304 ∨ r.status = 204) →
        r.contentLength = none →
        hdrExact (finalizeFraming reqProt r).headers ("Content-Length".toList) = none
        ∧ (reqProt = HttpProt.http11 → (finalizeFraming reqProt r).te.chunked = true)
        ∧ (reqProt = HttpProt.http10 → (finalizeFraming reqProt r).te.chunked = false))
    ∧ (∀ r : RespM, r.protocol = HttpProt.http10 →
        (connectionSetup reqConn r).closed = true) := by
  refine ⟨?_, ?_, ?_, ?_, ?_⟩
  · unfold flushHeaders
    rw [if_neg (by rw [h]; simp)]
    rfl
  · intro r hst
    unfold finalizeFraming
    dsimp only
    rw [if_pos hst]
    refine ⟨?_, rfl, rfl, rfl⟩
    rw [hdrExact_replace_ne _ _ (by decide), hdrExact_remove_self]
  · intro r n hst hcl
    unfold finalizeFraming
    dsimp only
    rw [if_neg hst, hcl]
    dsimp only
    refine ⟨?_, rfl⟩
    rw [hdrExact_replace_ne _ _ (by decide), hdrExact_set_self]
  · intro r hst hcl
    unfold finalizeFraming
    dsimp only
    rw [if_neg hst, hcl]
    dsimp only
    cases reqProt with
    | http10 =>
      refine ⟨?_, ?_, ?_⟩
      · rw [hdrExact_replace_ne _ _ (by decide), hdrExact_remove_self]
      · intro hc
        cases hc
      · intro _
        rfl
    | http11 =>
      refine ⟨?_, ?_, ?_⟩
      · rw [hdrExact_replace_ne _ _ (by decide), hdrExact_remove_self]
      · intro _
        rfl
      · intro hc
        cases hc
  · intro r hp
    unfold connectionSetup
    dsimp only
    rw [hp]

theorem flush_headers_spec_witness :
    flushHeaders HttpProt.http11 none
        ⟨⟨.http11, 200, [], none, TE.zero, none, false, false⟩, []⟩
      = ⟨{ finalizeFraming HttpProt.http11
            (syncContentLength (runFilters []
              (connectionSetup none ⟨.http11, 200, [], none, TE.zero, none, false, false⟩))) with
          headersSent := true }, []⟩ :=
  (flush_headers_spec HttpProt.http11 none
    ⟨.http11, 200, [], none, TE.zero, none, false, false⟩ [] rfl).1

end WS
